import Mathlib

/-!
# go-read-mail: mailbox to spreadsheet synchronisation

A shallow embedding of the Go sources (`mail/mail.go`, `mail/message.go`,
`excel/excel.go`, `awss3/awss3.go`, `main.go`) together with theorems about them.

Conventions of the embedding.

* `uint32` values are natural numbers reduced modulo `2 ^ 32` after every operation.
* A `time.Time` is an integer number of nanoseconds counted from the zero `Time`
  (January 1, year 1, 00:00:00 UTC); a `time.Duration` is an integer clamped to the
  signed 64-bit range, as `Time.Sub` does.
* The wall clock is a function from the index of a reading to the instant read. The
  readings are numbered in pairs: step `c` of the program owns the readings `2 * c` and
  `2 * c + 1`. A comparison of `sortMsgs`, which calls `time.Since` twice, takes both; a
  lone `time.Since` takes the first. The number of steps taken so far is threaded through
  the code that calls `time.Since`.
* The IMAP server, the object store, the workbook codec and the layout functions of
  package `time` are outside the repository: they enter as fields of `Env` and `Srv`,
  the wall clock as the argument `clock`, and what package `sort` does with a slice of
  more than twelve elements as the argument `long`.
* `log.Fatal` ends the process: functions that may reach it return `Except String _`,
  the error being the line logged before the exit.
-/

namespace ReadMail

/-! ## Machine integers -/

/-- Number of values of a `uint32`. -/
def u32 : Nat := 4294967296

/-- Subtraction of `uint32` values, wrapping around below zero. -/
def sub32 (a b : Nat) : Nat := (a % u32 + u32 - b % u32) % u32

/-- Addition of `uint32` values, wrapping around. -/
def add32 (a b : Nat) : Nat := (a + b) % u32

/-! ## Package `time` -/

/-- Largest `time.Duration`, in nanoseconds. -/
def maxDuration : Int := 9223372036854775807

/-- Smallest `time.Duration`, in nanoseconds. -/
def minDuration : Int := -9223372036854775808

/-- The duration `t - u` of `Time.Sub`: the difference of the two instants, replaced by
`maxDuration` or `minDuration` when it does not fit a `Duration`. -/
def timeSub (t u : Int) : Int :=
  if maxDuration < t - u then maxDuration
  else if t - u < minDuration then minDuration
  else t - u

/-- The value of `time.Since(t)` when it is the `c`-th reading of the wall clock:
`time.Now().Sub(t)`. Parsed dates carry no monotonic reading, so the wall clock is used. -/
def timeSince (clock : Nat → Int) (c : Nat) (t : Int) : Int :=
  timeSub (clock c) t

/-- The zero value `time.Time{}`. -/
def zeroTime : Int := 0

/-! ## Package `mail`: messages -/

/-- An attachment of a message (`mail.Attachment`); `ContentType` is the field `Type`, and
`Buf` holds the bytes of the payload that are still to be read from the buffer. -/
structure Attachment where
  Name : String
  ContentType : String
  Url : String
  Buf : List Nat
deriving DecidableEq, Repr

/-- A parsed message (`mail.Message`). -/
structure Message where
  Id : String
  Date : Int
  Subject : String
  BodyText : String
  BodyHtml : String
  Cc : List String
  Bcc : List String
  From : List String
  Sender : List String
  ReplyTo : List String
  Attachment : List Attachment
deriving DecidableEq, Repr

/-- The zero value of `Message`, as `make([]Message, n)` creates it. -/
def Message.zero : Message :=
  { Id := "", Date := zeroTime, Subject := "", BodyText := "", BodyHtml := "",
    Cc := [], Bcc := [], From := [], Sender := [], ReplyTo := [], Attachment := [] }

/-- Joins the strings with `", "` (`mail.ToString`). -/
def ToString : List String → String
  | [] => ""
  | [s] => s
  | s :: t :: rest => s ++ ", " ++ ToString (t :: rest)

/-! ## Sorting -/

/-- The comparator of `sortMsgs`, `time.Since(msgs[i].Date) < time.Since(msgs[j].Date)`,
for `x = msgs[i]` and `y = msgs[j]`, when it is step `c`. The operands are evaluated left
to right, so the first reading of the step serves `x` and the second serves `y`. -/
def sortLess (clock : Nat → Int) (c : Nat) (x y : Message) : Bool :=
  decide (timeSince clock (2 * c) x.Date < timeSince clock (2 * c + 1) y.Date)

/-- A comparator as package `sort` sees it: the step at which it is called and the two
elements compared. -/
abbrev Less := Nat → Message → Message → Bool

/-- Inner loop of the insertion sort of package `sort`,
`for j := i; j > a && less(j, j-1); j-- { swap(j, j-1) }`.
`rp` is the part of the slice left of position `i`, last element first, `x` the element
that travels left, and `c` the number of steps taken so far; every call of `less` is one
step. The result is the slice up to position `i`, last element first, and the new number
of steps. -/
def insertBack (less : Less) : List Message → Message → Nat → List Message × Nat
  | [], x, c => ([x], c)
  | y :: rp, x, c =>
    if less c x y then
      let r := insertBack less rp x (c + 1)
      (y :: r.1, r.2)
    else (x :: y :: rp, c + 1)

/-- Outer loop of the insertion sort, `for i := a + 1; i < b; i++`: the elements still to
insert are `todo`, the part already handled is `rp` (last element first). -/
def insertionSort (less : Less) : List Message → List Message → Nat → List Message × Nat
  | [], rp, c => (rp.reverse, c)
  | x :: todo, rp, c =>
    let r := insertBack less rp x c
    insertionSort less todo r.1 r.2

/-- What `sort.Slice` does with a slice of more than twelve elements (a pattern-defeating
quicksort of package `sort`, outside the repository): from the comparator, the slice and
the number of steps taken so far, the slice it leaves and the new number of steps. -/
abbrev LongSort := Less → List Message → Nat → List Message × Nat

/-- `sortMsgs`: `sort.Slice` with the comparator `sortLess`. Package `sort` runs the
insertion sort above on a slice of at most twelve elements; a longer slice is left to
`long`. -/
def sortMsgs (clock : Nat → Int) (long : LongSort) (msgs : List Message) (c : Nat) :
    List Message × Nat :=
  if msgs.length ≤ 12 then insertionSort (sortLess clock) msgs [] c
  else long (sortLess clock) msgs c

/-! ## Package `mail`: the mailbox session -/

/-- The IMAP server as one request sees it. -/
structure Srv where
  /-- Error of `client.DialTLS`, if any. -/
  dialError : Option String
  /-- Error of `Client.Login`, if any. -/
  loginError : Option String
  /-- Error of `Client.Select`, if any. -/
  selectError : Option String
  /-- The messages of INBOX; the message with sequence number `n` is at index `n - 1`. -/
  box : List Message
  /-- Error reported by `Client.Fetch` for a range of sequence numbers, if any. -/
  fetchError : Nat → Nat → Option String

/-- The session (`mail.Mail`). -/
structure Mail where
  Addr : String
  User : String
  Pass : String
  numMsgs : Nat
deriving DecidableEq, Repr

/-- `Mail.Login`: connects, logs in and selects INBOX; on success `numMsgs` is the number
of messages of the mailbox. -/
def Login (srv : Srv) (m : Mail) : Except String Mail :=
  match srv.dialError with
  | some e => .error ("unable to connect to " ++ m.Addr ++ ". err: " ++ e)
  | none =>
    match srv.loginError with
    | some e => .error ("unable to login to " ++ m.User ++ ". err: " ++ e)
    | none =>
      match srv.selectError with
      | some e => .error ("unable to read INBOX. err: " ++ e)
      | none => .ok { m with numMsgs := srv.box.length % u32 }

/-- `Mail.NumMsgs`. -/
def NumMsgs (m : Mail) : Nat := m.numMsgs

/-- The messages the server delivers for the sequence set `from:to`. -/
def delivered (box : List Message) (from_ to_ : Nat) : List Message :=
  (box.drop (from_ - 1)).take (to_ + 1 - from_)

/-- State of a mailbox scan: steps of the clock taken and ranges requested from the
server. -/
structure Trace where
  tick : Nat
  fetched : List (Nat × Nat)
deriving DecidableEq, Repr

/-- `Mail.Fetch`: allocates `to - from + 1` messages, fills them in the order of delivery,
ends the process on a transfer error and returns the messages sorted. -/
def Fetch (clock : Nat → Int) (long : LongSort) (srv : Srv) (from_ to_ : Nat) (tr : Trace) :
    Except String (List Message × Trace) :=
  let n := add32 (sub32 to_ from_) 1
  let got := delivered srv.box from_ to_
  let msgs := got ++ List.replicate (n - got.length) Message.zero
  match srv.fetchError from_ to_ with
  | some e => .error e
  | none =>
    let r := sortMsgs clock long msgs tr.tick
    .ok (r.1, { tick := r.2, fetched := tr.fetched ++ [(from_, to_)] })

/-- The loop over one batch in `FetchAfter`: a message with
`time.Since(msg.Date) > since` sets `found` and leaves the loop, any other is appended.
Every test is one step and takes its first reading. -/
def scanBatch (clock : Nat → Int) (since : Int) :
    List Message → List Message → Nat → Bool × List Message × Nat
  | [], acc, c => (false, acc, c)
  | m :: rest, acc, c =>
    if since < timeSince clock (2 * c) m.Date then (true, acc, c + 1)
    else scanBatch clock since rest (acc ++ [m]) (c + 1)

/-- The loop `for !found && from > 0 && to > 0` of `FetchAfter`. `fuel` bounds the number
of iterations; `none` is returned when it runs out. -/
def fetchLoop (clock : Nat → Int) (long : LongSort) (srv : Srv) (since : Int) :
    Nat → Bool → Nat → Nat → List Message → Trace → Option (Except String (List Message × Trace))
  | 0, found, from_, to_, msgs, tr =>
    if !found && decide (0 < from_) && decide (0 < to_) then none else some (.ok (msgs, tr))
  | fuel + 1, found, from_, to_, msgs, tr =>
    if !found && decide (0 < from_) && decide (0 < to_) then
      let from1 := if to_ < 10 then 1 else from_
      match Fetch clock long srv from1 to_ tr with
      | .error e => some (.error e)
      | .ok (batch, tr1) =>
        let r := scanBatch clock since batch msgs tr1.tick
        let to2 := sub32 from1 1
        let from2 := sub32 to2 9
        fetchLoop clock long srv since fuel r.1 from2 to2 r.2.1 { tr1 with tick := r.2.2 }
    else some (.ok (msgs, tr))

/-- `Mail.FetchAfter`: scans the mailbox backwards in batches of ten until a message not
newer than `t` is met, and returns the collected messages sorted. The loop is given
`numMsgs + 1` iterations of fuel. -/
def FetchAfter (clock : Nat → Int) (long : LongSort) (srv : Srv) (m : Mail) (t : Int)
    (tr : Trace) : Option (Except String (List Message × Trace)) :=
  let since := timeSince clock (2 * tr.tick) t
  let to_ := m.numMsgs
  let from_ := if to_ < 10 then 1 else sub32 to_ 9
  match fetchLoop clock long srv since (m.numMsgs + 1) false from_ to_ []
      { tr with tick := tr.tick + 1 } with
  | none => none
  | some (.error e) => some (.error e)
  | some (.ok (msgs, tr1)) =>
    let r := sortMsgs clock long msgs tr1.tick
    some (.ok (r.1, { tr1 with tick := r.2 }))

/-! ## The workbook codec: the sheet

The workbook is the single sheet `Sheet1`, a grid of cells. Styles, row heights and column
widths are layout data outside the grid and are not part of the embedding. -/

/-- A cell: its value and the target of its hyperlink, if it has one. -/
structure Cell where
  value : String
  link : Option String
deriving DecidableEq, Repr

/-- The cell no call has written to. -/
def Cell.blank : Cell := { value := "", link := none }

/-- A row: its cells from column `A` on. -/
abbrev Row := List Cell

/-- The sheet: its rows from row 1 on. -/
abbrev Sheet := List Row

/-- An object of the store: an encoded workbook or any other byte content. -/
inductive Blob where
  | xlsx (s : Sheet)
  | raw (bytes : List Nat)
deriving DecidableEq, Repr

/-- Applies `f` at index `n` of a list, extending the list with `d` up to that index when
it is shorter. -/
def updateAt {α : Type} (d : α) (f : α → α) : List α → Nat → List α
  | [], 0 => [f d]
  | [], n + 1 => d :: updateAt d f [] n
  | x :: xs, 0 => f x :: xs
  | x :: xs, n + 1 => x :: updateAt d f xs n

/-- Reads index `n` of a list, `d` when the list is shorter. -/
def readAt {α : Type} (d : α) : List α → Nat → α
  | [], _ => d
  | x :: _, 0 => x
  | _ :: xs, n + 1 => readAt d xs n

/-- The column a one-letter column name stands for, the letter being given by its code
point: `A`..`Z` and `a`..`z` name the columns 1 to 26, any other character names none. -/
def columnOf (r : Nat) : Option Nat :=
  if 65 ≤ r ∧ r ≤ 90 then some (r - 64)
  else if 97 ≤ r ∧ r ≤ 122 then some (r - 96)
  else none

/-! ## The environment -/

/-- What the program takes from outside the repository. -/
structure Env where
  /-- `Time.Format` with the layout `2006-01-02 15:04:05 -0700`. -/
  formatDate : Int → String
  /-- `time.Parse` with the same layout; `none` is a parse error. -/
  parseDate : String → Option Int
  /-- The error of the `n`-th `PutObject` call, made for the given key, if it fails. -/
  putError : Nat → String → Option String
  /-- How many bytes of its body the `n`-th `PutObject` call, made for the given key, has
  read when it fails. -/
  putRead : Nat → String → Nat
  /-- `PresignGetObject` for a key: the link, or an error. -/
  presign : String → Except String String
  /-- An error of `GetObject` other than the absence of the key, if any. -/
  getError : String → Option String
  /-- The error of `File.WriteToBuffer` on a sheet, if it fails. -/
  encodeError : Sheet → Option String
  /-- What the codec keeps of a string value that is over its limit for one cell. -/
  cutText : String → String

/-! ## The workbook codec: operations -/

/-- The largest row number of a sheet (`excelize.TotalRows`). -/
def TotalRows : Nat := 1048576

/-- The limit of the codec for the text of one cell (`excelize.TotalCellChars`). -/
def TotalCellChars : Nat := 32767

/-- The limit of the codec for the hyperlinks of one sheet
(`excelize.TotalSheetHyperlinks`): a hyperlink is refused when the sheet holds more. -/
def TotalSheetHyperlinks : Nat := 65529

/-- Changes the cell whose name is the character `r` followed by the row number `row`.
A name the codec rejects (no column letter, row 0, a row after `TotalRows`) leaves the
sheet as it is: the callers drop the error. -/
def modifyCell (s : Sheet) (r row : Nat) (f : Cell → Cell) : Sheet :=
  match columnOf r with
  | none => s
  | some col =>
    if row = 0 ∨ TotalRows < row then s
    else updateAt [] (fun cells => updateAt Cell.blank f cells (col - 1)) s (row - 1)

/-- The text the codec stores for a string value. The codec cuts a value that is longer
than `TotalCellChars`; how it counts the length and where it cuts differ between its
versions. A value of at most `TotalCellChars` bytes is within the limit however the
length is counted and is stored as it is; what is kept of a longer one is `Env.cutText`. -/
def cellText (env : Env) (v : String) : String :=
  if v.utf8ByteSize ≤ TotalCellChars then v else env.cutText v

/-- One for a cell that carries a hyperlink, zero for any other. -/
def linkBit (c : Cell) : Nat := if c.link.isSome then 1 else 0

/-- The number of cells of a row that carry a hyperlink. -/
def rowLinks (cells : Row) : Nat := (cells.map linkBit).sum

/-- The number of cells of a sheet that carry a hyperlink. -/
def linkCount (s : Sheet) : Nat := (s.map rowLinks).sum

/-- `File.SetCellValue` on that cell, with a string value. -/
def SetCellValue (env : Env) (s : Sheet) (r row : Nat) (v : String) : Sheet :=
  modifyCell s r row (fun c => { c with value := cellText env v })

/-- `File.SetCellHyperLink` on that cell, with an external target. The call is refused,
and the sheet left as it is, when the sheet holds more than `TotalSheetHyperlinks`
hyperlinks. -/
def SetCellHyperLink (s : Sheet) (r row : Nat) (url : String) : Sheet :=
  if TotalSheetHyperlinks < linkCount s then s
  else modifyCell s r row (fun c => { c with link := some url })

/-- `File.GetCellValue` for the cell in column `col` of row `row`, both counted from 1. -/
def GetCellValue (s : Sheet) (row col : Nat) : String :=
  (readAt Cell.blank (readAt [] s (row - 1)) (col - 1)).value

/-- `File.InsertRows`: `n` blank rows are inserted before row `row`; the rows from `row`
on move down. The call is refused when `row` or `n` reaches `TotalRows`, and when a row
would move past `TotalRows`. -/
def InsertRows (s : Sheet) (row n : Nat) : Except String Sheet :=
  if row < 1 then .error "invalid row number"
  else if TotalRows ≤ row ∨ TotalRows ≤ n then .error "row number exceeds maximum limit"
  else if n < 1 then .error "parameter is invalid"
  else if s.length < row then .ok s
  else if TotalRows < s.length + n then .error "row number exceeds maximum limit"
  else .ok (s.take (row - 1) ++ List.replicate n [] ++ s.drop (row - 1))

/-- `excelize.OpenReader`: decodes a workbook. -/
def OpenReader (b : Blob) : Except String Sheet :=
  match b with
  | .xlsx s => .ok s
  | .raw _ => .error "zip: not a valid zip file"

/-! ## Package `excel` -/

/-- Column titles of the ledger. -/
def headers : List String :=
  ["Id", "Date", "From", "Subject", "Cc", "Bcc", "ReplyTo", "Attachments"]

/-- `save`: encodes the workbook. -/
def save (env : Env) (f : Sheet) : Except String Blob :=
  match env.encodeError f with
  | some e => .error e
  | none => .ok (.xlsx f)

/-- The loop of `setHeaders` from index `i` on: title `i` goes to the cell named by the
character `65 + i` in row 1. -/
def setHeadersFrom (env : Env) : List String → Nat → Sheet → Sheet
  | [], _, f => f
  | header :: rest, i, f =>
    setHeadersFrom env rest (i + 1) (SetCellValue env f (65 + i) 1 header)

/-- `setHeaders`. -/
def setHeaders (env : Env) (f : Sheet) : Sheet := setHeadersFrom env headers 0 f

/-- The loop over the attachments of a message in `setRows`, from index `k` on:
attachment `k` goes to the cell named by the character `65 + j + k`. -/
def setAttachments (env : Env) : List Attachment → Nat → Nat → Nat → Sheet → Sheet
  | [], _, _, _, f => f
  | att :: rest, j, k, dataRow, f =>
    setAttachments env rest j (k + 1) dataRow
      (SetCellValue env (SetCellHyperLink f (65 + j + k) dataRow att.Url) (65 + j + k) dataRow
        att.Name)

/-- The body of the loop over the titles in `setRows`: what is written for title `h` at
index `j`. -/
def setField (env : Env) (msg : Message) (dataRow j : Nat) (h : String) (f : Sheet) : Sheet :=
  if h = "Id" then SetCellValue env f (65 + j) dataRow msg.Id
  else if h = "Date" then SetCellValue env f (65 + j) dataRow (env.formatDate msg.Date)
  else if h = "From" then SetCellValue env f (65 + j) dataRow (ToString msg.From)
  else if h = "Subject" then SetCellValue env f (65 + j) dataRow msg.Subject
  else if h = "Cc" then SetCellValue env f (65 + j) dataRow (ToString msg.Cc)
  else if h = "Bcc" then SetCellValue env f (65 + j) dataRow (ToString msg.Bcc)
  else if h = "ReplyTo" then SetCellValue env f (65 + j) dataRow (ToString msg.ReplyTo)
  else if h = "Attachments" then setAttachments env msg.Attachment j 0 dataRow f
  else f

/-- The loop over the titles in `setRows`, from index `j` on. -/
def setFields (env : Env) (msg : Message) (dataRow : Nat) : List String → Nat → Sheet → Sheet
  | [], _, f => f
  | h :: rest, j, f => setFields env msg dataRow rest (j + 1) (setField env msg dataRow j h f)

/-- The loop over the messages in `setRows`, from index `i` on: message `i` is written
to row `i + 2`. -/
def setRowsFrom (env : Env) : List Message → Nat → Sheet → Sheet
  | [], _, f => f
  | msg :: rest, i, f => setRowsFrom env rest (i + 1) (setFields env msg (i + 2) headers 0 f)

/-- `setRows`. -/
def setRows (env : Env) (f : Sheet) (msgs : List Message) : Sheet :=
  setRowsFrom env msgs 0 f

/-- `excel.New`: a new workbook with the title row and one row per message. -/
def New (env : Env) (msgs : List Message) : Except String Blob :=
  save env (setRows env (setHeaders env []) msgs)

/-- `excel.GetRecentMsgDate`: the date in cell `B2`, the zero time when the workbook or
the date cannot be read. -/
def GetRecentMsgDate (env : Env) (r : Blob) : Int :=
  match OpenReader r with
  | .error _ => zeroTime
  | .ok f =>
    match env.parseDate (GetCellValue f 2 2) with
    | none => zeroTime
    | some t => t

/-- `excel.PrependRows`: inserts as many rows as there are messages below the title row
and writes the messages into them. -/
def PrependRows (env : Env) (r : Blob) (msgs : List Message) : Except String Blob :=
  match OpenReader r with
  | .error e => .error e
  | .ok f =>
    match InsertRows f 2 msgs.length with
    | .error e => .error e
    | .ok f1 => save env (setRows env f1 msgs)

/-! ## Package `awss3` -/

/-- The state the program acts on: the objects of the bucket, the state of the mailbox
scan, and the keys of the `PutObject` calls made so far. -/
structure World where
  store : List (String × Blob)
  trace : Trace
  puts : List String
deriving DecidableEq, Repr

/-- The text the store errors carry when the key does not exist. -/
def NotFound : String := "NoSuchKey"

/-- The error of `GetObject` for a key the bucket does not hold. -/
def noSuchKeyError : String := "api error NoSuchKey: The specified key does not exist."

/-- The object stored under a key. -/
def storeGet (st : List (String × Blob)) (key : String) : Option Blob :=
  match st with
  | [] => none
  | (k, b) :: rest => if k = key then some b else storeGet rest key

/-- The bucket after an object is written under a key. -/
def storePut (st : List (String × Blob)) (key : String) (b : Blob) : List (String × Blob) :=
  match st with
  | [] => [(key, b)]
  | (k, b0) :: rest => if k = key then (key, b) :: rest else (k, b0) :: storePut rest key b

/-- `awss3.GetFileLink`: the presigned link of a key. -/
def GetFileLink (env : Env) (key : String) : Except String String :=
  match env.presign key with
  | .error e => .error ("couldn't get file url " ++ key ++ ". err: " ++ e)
  | .ok url => .ok url

/-- `awss3.UploadFile`: writes the object, then returns its presigned link. `body` is what
the reader handed over holds. -/
def UploadFile (env : Env) (key : String) (body : Blob) (w : World) :
    Except String String × World :=
  match env.putError w.puts.length key with
  | some e =>
    (.error ("couldn't upload file " ++ key ++ ". err: " ++ e), { w with puts := w.puts ++ [key] })
  | none =>
    (GetFileLink env key, { w with store := storePut w.store key body, puts := w.puts ++ [key] })

/-- `awss3.DownloadFile`: the object stored under a key. -/
def DownloadFile (env : Env) (key : String) (w : World) : Except String Blob :=
  match env.getError key with
  | some e => .error e
  | none =>
    match storeGet w.store key with
    | none => .error noSuchKeyError
    | some b => .ok b

/-! ## Package `main` -/

/-- Name of the ledger object of a user. -/
def DefaultExcel : String := "data.xlsx"

/-- The response sent to the client. -/
structure response where
  Status : Nat
  Message : String
  ExcelUrl : String
deriving DecidableEq, Repr

/-- `http.StatusBadRequest`. -/
def StatusBadRequest : Nat := 400

/-- `http.StatusInternalServerError`. -/
def StatusInternalServerError : Nat := 500

/-- `http.StatusCreated`. -/
def StatusCreated : Nat := 201

/-- What a `bytes.Buffer` that held `body` still holds after it was read as the body of
the `n`-th `PutObject` call, made for `key`: nothing when the call succeeded, the store
having read it to the end, and the bytes the call had not read yet when it failed. -/
def unread (env : Env) (n : Nat) (key : String) (body : List Nat) : List Nat :=
  match env.putError n key with
  | none => []
  | some _ => body.drop (env.putRead n key)

/-- The loop over the attachments of one message in `uploadAttachments`: one upload per
attachment under the key `User/Id/Name`, with the buffer of the attachment itself as the
reader, `&msg.Attachment[i].Buf`; a successful upload stores its link in `Url`, a failed
one leaves `Url` as it is, and either way the buffer holds what the upload did not read.
Each task has its own `msg` and `i` (loop variables are per iteration) and writes to an
attachment of its own, so the tasks are run one after the other. -/
def uploadMessage (env : Env) (u : Mail) (id : String) :
    List Attachment → World → List Attachment × World
  | [], w => ([], w)
  | att :: rest, w =>
    let key := u.User ++ "/" ++ id ++ "/" ++ att.Name
    let r := UploadFile env key (.raw att.Buf) w
    let att0 := { att with Buf := unread env w.puts.length key att.Buf }
    let att1 := match r.1 with
      | .error _ => att0
      | .ok url => { att0 with Url := url }
    let rs := uploadMessage env u id rest r.2
    (att1 :: rs.1, rs.2)

/-- `uploadAttachments`: the loop over the messages, followed by the wait for all tasks. -/
def uploadAttachments (env : Env) (u : Mail) : List Message → World → List Message × World
  | [], w => ([], w)
  | msg :: rest, w =>
    let r := uploadMessage env u msg.Id msg.Attachment w
    let rs := uploadAttachments env u rest r.2
    ({ msg with Attachment := r.1 } :: rs.1, rs.2)

/-- The range `createUserExcel` asks `Fetch` for, from the number of messages. -/
def createRange (n : Nat) : Nat × Nat :=
  let to_ := n
  let from_ := if to_ ≤ 25 then 1 else sub32 to_ 25
  (from_, to_)

/-- `createUserExcel`: fetches the recent messages, uploads their attachments, builds the
ledger and uploads it. The outer error is the end of the process in `Fetch`. -/
def createUserExcel (env : Env) (clock : Nat → Int) (long : LongSort) (srv : Srv) (u : Mail)
    (w : World) : Except String (Except String String × World) :=
  match Fetch clock long srv (createRange (NumMsgs u)).1 (createRange (NumMsgs u)).2
      w.trace with
  | .error e => .error e
  | .ok (msgs, tr) =>
    let up := uploadAttachments env u msgs { w with trace := tr }
    match New env up.1 with
    | .error e => .ok (.error ("unable to create excel file. err: " ++ e), up.2)
    | .ok ebuf =>
      match UploadFile env (u.User ++ "/" ++ DefaultExcel) ebuf up.2 with
      | (.error e, w2) => .ok (.error ("unable to upload excel file. err: " ++ e), w2)
      | (.ok url, w2) => .ok (.ok url, w2)

/-- `updateUserExcel`: reads the date of the newest row of the ledger `buf`, fetches the
messages after it and, when there are some, uploads their attachments, prepends their
rows and replaces the ledger. `none` is the scan running out of fuel, the outer error the
end of the process in `Fetch`. -/
def updateUserExcel (env : Env) (clock : Nat → Int) (long : LongSort) (srv : Srv) (u : Mail)
    (buf : Blob) (w : World) : Option (Except String (Except String String × World)) :=
  let t := GetRecentMsgDate env buf
  match FetchAfter clock long srv u t w.trace with
  | none => none
  | some (.error e) => some (.error e)
  | some (.ok (msgs, tr)) =>
    if msgs.length = 0 then
      some (.ok (GetFileLink env (u.User ++ "/" ++ DefaultExcel), { w with trace := tr }))
    else
      let up := uploadAttachments env u msgs { w with trace := tr }
      match PrependRows env buf up.1 with
      | .error e => some (.ok (.error ("unable to update excel file. err: " ++ e), up.2))
      | .ok bufp =>
        match UploadFile env (u.User ++ "/" ++ DefaultExcel) bufp up.2 with
        | (.error e, w2) => some (.ok (.error ("unable to upload excel file. err: " ++ e), w2))
        | (.ok url, w2) => some (.ok (.ok url, w2))

/-- Whether `sub` occurs in `s` (`strings.Contains`). -/
def strContains (s sub : String) : Bool := decide (sub.data <:+: s.data)

/-- What a request ends in: a response sent to the client, or the end of the process
before any response, with the line logged. -/
inductive Reply where
  | sent (r : response)
  | exited (line : String)
deriving DecidableEq, Repr

/-- `readMail`: the request handler. `req` is the decoded request body, `none` when the
body is not valid JSON. `none` as a result is the scan running out of fuel. -/
def readMail (env : Env) (clock : Nat → Int) (long : LongSort) (srv : Srv)
    (req : Option Mail) (w : World) : Option (Reply × World) :=
  match req with
  | none => some (.sent ⟨StatusBadRequest, "Malformed request body", ""⟩, w)
  | some u0 =>
    if u0.Addr = "" ∨ u0.User = "" ∨ u0.Pass = "" then
      some (.sent ⟨StatusBadRequest, "Malformed request body", ""⟩, w)
    else
      match Login srv u0 with
      | .error e => some (.sent ⟨StatusBadRequest, e, ""⟩, w)
      | .ok u =>
        match DownloadFile env (u.User ++ "/" ++ DefaultExcel) w with
        | .error e =>
          if strContains e NotFound then
            match createUserExcel env clock long srv u w with
            | .error line => some (.exited line, w)
            | .ok (.error e1, w1) => some (.sent ⟨StatusInternalServerError, e1, ""⟩, w1)
            | .ok (.ok url, w1) => some (.sent ⟨StatusCreated, "Success", url⟩, w1)
          else some (.sent ⟨StatusInternalServerError, e, ""⟩, w)
        | .ok s3buf =>
          match updateUserExcel env clock long srv u s3buf w with
          | none => none
          | some (.error line) => some (.exited line, w)
          | some (.ok (.error e1, w1)) => some (.sent ⟨StatusInternalServerError, e1, ""⟩, w1)
          | some (.ok (.ok url, w1)) => some (.sent ⟨StatusCreated, "Success", url⟩, w1)

/-! ## Notions used in the statements -/

/-- The effect of `modifyCell` inside the row it addresses. -/
def rowModify (r : Nat) (f : Cell → Cell) (cells : Row) : Row :=
  match columnOf r with
  | none => cells
  | some col => updateAt Cell.blank f cells (col - 1)

/-- The effect of `setAttachments` inside the row it addresses, when no hyperlink is
refused. -/
def rowAttachments (env : Env) : List Attachment → Nat → Nat → Row → Row
  | [], _, _, cells => cells
  | att :: rest, j, k, cells =>
    rowAttachments env rest j (k + 1)
      (rowModify (65 + j + k) (fun c => { c with value := cellText env att.Name })
        (rowModify (65 + j + k) (fun c => { c with link := some att.Url }) cells))

/-- The effect of the writes of `setRows` for one message inside its row, when no
hyperlink is refused. -/
def rowWrite (env : Env) (msg : Message) (cells : Row) : Row :=
  rowAttachments env msg.Attachment 7 0
    (rowModify 71 (fun c => { c with value := cellText env (ToString msg.ReplyTo) })
    (rowModify 70 (fun c => { c with value := cellText env (ToString msg.Bcc) })
    (rowModify 69 (fun c => { c with value := cellText env (ToString msg.Cc) })
    (rowModify 68 (fun c => { c with value := cellText env msg.Subject })
    (rowModify 67 (fun c => { c with value := cellText env (ToString msg.From) })
    (rowModify 66 (fun c => { c with value := cellText env (env.formatDate msg.Date) })
    (rowModify 65 (fun c => { c with value := cellText env msg.Id }) cells)))))))

/-- The effect of the loop over the attachments inside the row it addresses when every
hyperlink is refused: the names are written. -/
def rowNames (env : Env) : List Attachment → Nat → Nat → Row → Row
  | [], _, _, cells => cells
  | att :: rest, j, k, cells =>
    rowNames env rest j (k + 1)
      (rowModify (65 + j + k) (fun c => { c with value := cellText env att.Name }) cells)

/-- The effect of the writes of `setRows` for one message inside its row when every
hyperlink is refused. -/
def rowText (env : Env) (msg : Message) (cells : Row) : Row :=
  rowNames env msg.Attachment 7 0
    (rowModify 71 (fun c => { c with value := cellText env (ToString msg.ReplyTo) })
    (rowModify 70 (fun c => { c with value := cellText env (ToString msg.Bcc) })
    (rowModify 69 (fun c => { c with value := cellText env (ToString msg.Cc) })
    (rowModify 68 (fun c => { c with value := cellText env msg.Subject })
    (rowModify 67 (fun c => { c with value := cellText env (ToString msg.From) })
    (rowModify 66 (fun c => { c with value := cellText env (env.formatDate msg.Date) })
    (rowModify 65 (fun c => { c with value := cellText env msg.Id }) cells)))))))


/-- The key `uploadAttachments` uploads an attachment of a message under. -/
def attachmentKey (u : Mail) (id : String) (a : Attachment) : String :=
  u.User ++ "/" ++ id ++ "/" ++ a.Name

/-- The number of uploads `uploadAttachments` starts before the one for attachment `k` of
message `i`. -/
def uploadIndex (msgs : List Message) (i k : Nat) : Nat :=
  ((msgs.take i).map (fun m => m.Attachment.length)).sum + k

/-- How `b`, an attachment after `uploadAttachments`, relates to `a`, the same attachment
before, when its upload was the `n`-th `PutObject` call, under the key `key`. The name and
the type are as before. `Url` is the link of the key when the upload succeeded, and is as
before when the upload failed. The buffer is empty when the `PutObject` call succeeded,
and holds the bytes the call had not read when it failed. -/
def Uploaded (env : Env) (n : Nat) (key : String) (a b : Attachment) : Prop :=
  b.Name = a.Name ∧ b.ContentType = a.ContentType ∧
  (∀ url, env.putError n key = none → env.presign key = .ok url → b.Url = url) ∧
  ((env.putError n key ≠ none ∨ ∃ e, env.presign key = .error e) → b.Url = a.Url) ∧
  (env.putError n key = none → b.Buf = []) ∧
  (env.putError n key ≠ none → b.Buf = a.Buf.drop (env.putRead n key))

/-- One second, in nanoseconds. -/
def second : Int := 1000000000

/-- The clock never goes back, and the two readings of one step, those a comparison of
`sortMsgs` takes, are less than a second apart. Nothing bounds the time from one step to
the next. -/
def SteadyClock (clock : Nat → Int) : Prop :=
  (∀ i, clock i ≤ clock (i + 1)) ∧ ∀ c, clock (2 * c + 1) < clock (2 * c) + second

/-- The instant `d` is a whole number of seconds and its distance to every reading of the
clock fits a `Duration`. -/
def PlainDate (clock : Nat → Int) (d : Int) : Prop :=
  second ∣ d ∧ ∀ i, minDuration ≤ clock i - d ∧ clock i - d ≤ maxDuration

/-- The messages are in descending order of `Date`, equal dates allowed. -/
def Descending (msgs : List Message) : Prop :=
  msgs.Pairwise (fun a b => b.Date ≤ a.Date)

/-- The message is in the mailbox and passed the test of `FetchAfter` at some step from
the one numbered `tick0` on. -/
def Kept (clock : Nat → Int) (since : Int) (tick0 : Nat) (box : List Message) (m : Message) : Prop :=
  m ∈ box ∧ ∃ i, tick0 ≤ i ∧ ¬ (since < timeSince clock (2 * i) m.Date)

/-- Every answer the comparator gives on two messages of the list agrees with the order
of their dates: `true` only when the second is not later than the first, `false` only
when the first is not later than the second. -/
def SoundLess (less : Less) (msgs : List Message) : Prop :=
  ∀ e x y, x ∈ msgs → y ∈ msgs →
    (less e x y = true → y.Date ≤ x.Date) ∧ (less e x y = false → x.Date ≤ y.Date)

/-- What is asked of the sort of a slice of more than twelve elements under the comparator
of `sortMsgs`: it leaves a permutation of the slice, the number of steps does not go down,
and when every answer of the comparator agrees with the order of the dates the slice is
left in descending order of date. -/
def LongSortSpec (long : LongSort) (clock : Nat → Int) : Prop :=
  ∀ msgs c, 12 < msgs.length →
    (long (sortLess clock) msgs c).1.Perm msgs
    ∧ c ≤ (long (sortLess clock) msgs c).2
    ∧ (SoundLess (sortLess clock) msgs → Descending (long (sortLess clock) msgs c).1)

/-- The value of the cell in column `B` of a row: its Date cell. -/
def dateCell (r : Row) : String := (readAt Cell.blank r 1).value

/-- The Date cells of the data rows of a ledger, from row 2 downward. -/
def dateCells (s : Sheet) : List String := (s.drop 1).map dateCell

/-- The Date cells of the data rows all parse, and the instants they denote never
increase from row 2 downward. -/
def DescDates (env : Env) (s : Sheet) : Prop :=
  (dateCells s).Pairwise
    (fun a b => ∃ x y, env.parseDate a = some x ∧ env.parseDate b = some y ∧ y ≤ x)

/-- The Date cells of the data rows all parse, and the instants they denote decrease
strictly from row 2 downward. -/
def StrictDescDates (env : Env) (s : Sheet) : Prop :=
  (dateCells s).Pairwise
    (fun a b => ∃ x y, env.parseDate a = some x ∧ env.parseDate b = some y ∧ y < x)

/-- A synchronisation request as the outside world shapes it: the state of the mail
server and the wall clock during the request. -/
structure Request where
  srv : Srv
  clock : Nat → Int

/-- One later synchronisation by the single writer of a ledger: the user logs in, the
stored ledger is read and `updateUserExcel` runs on it. A request that ends the process
or fails to log in leaves the bucket as it is. -/
def extend (env : Env) (long : LongSort) (u : Mail) (w : World) (rq : Request) : World :=
  match Login rq.srv u with
  | .error _ => w
  | .ok u1 =>
    match storeGet w.store (u.User ++ "/" ++ DefaultExcel) with
    | none => w
    | some buf =>
      match updateUserExcel env rq.clock long rq.srv u1 buf w with
      | some (.ok (_, w1)) => w1
      | _ => w

/-- The text of the Date cell of a message: its date in the layout of the ledger, as the
codec stores it. -/
def dateText (env : Env) (m : Message) : String := cellText env (env.formatDate m.Date)

/-- What the ordering of the ledger asks of a message: its date survives formatting,
storing and parsing, is a whole number of seconds within reach of every clock of `clocks`,
and the message has at most 26 attachments (the 27th is written over the Date cell). -/
def GoodMsg (env : Env) (clocks : List (Nat → Int)) (m : Message) : Prop :=
  env.parseDate (dateText env m) = some m.Date
    ∧ (∀ clock ∈ clocks, PlainDate clock m.Date)
    ∧ m.Attachment.length ≤ 26

/-- The title row `setHeaders` writes. -/
def headerRow : Row := headers.map (fun h => { value := h, link := none })

/-- The row of a message in the ledger as the specification describes it: the columns `A`
to `G` hold the `Id`, the date in the layout of the ledger, and `From`, `Subject`, `Cc`,
`Bcc` and `ReplyTo`, a list of addresses being joined by a comma and a blank; from column
`H` on there is one hyperlink cell for each attachment, its text the name and its target
the link of the attachment. Every text is what the codec stores for it. -/
def ledgerRow (env : Env) (m : Message) : Row :=
  [m.Id, env.formatDate m.Date, ", ".intercalate m.From, m.Subject, ", ".intercalate m.Cc,
      ", ".intercalate m.Bcc, ", ".intercalate m.ReplyTo].map
    (fun v => { value := cellText env v, link := none })
  ++ m.Attachment.map (fun a => { value := cellText env a.Name, link := some a.Url })

/-- The ledger is a title row followed by one row for each message of a list that is in
descending order of date, the Date cell of the row being the date of the message; each
of the messages is a `GoodMsg`. -/
def Ledger (env : Env) (clocks : List (Nat → Int)) (s : Sheet) : Prop :=
  ∃ h rows ms, s = h :: rows ∧ rows.map dateCell = ms.map (dateText env)
    ∧ Descending ms ∧ ∀ m ∈ ms, GoodMsg env clocks m

/-! ## Concrete inputs for the examples -/

/-- Decimal digits of a number, most significant first; `fuel` bounds their number. -/
def digitsOf : Nat → Nat → List Char
  | 0, _ => []
  | fuel + 1, n =>
    if n < 10 then [Char.ofNat (48 + n)]
    else digitsOf fuel (n / 10) ++ [Char.ofNat (48 + n % 10)]

/-- The number a list of decimal digits stands for, read from `acc` on. -/
def valueOf : List Char → Nat → Option Nat
  | [], acc => some acc
  | ch :: rest, acc =>
    if 48 ≤ ch.toNat ∧ ch.toNat ≤ 57 then valueOf rest (10 * acc + (ch.toNat - 48)) else none

/-- A layout for the examples: the instant as a count of whole seconds, in decimal. It
stands in for the layout of package `time`, of which the theorems use no more than that
formatting and parsing invert each other on the dates at hand. -/
def secondsFormat (t : Int) : String := String.mk (digitsOf 30 (t / second).toNat)

/-- Parser of the layout of the examples; the empty string is a parse error. -/
def secondsParse (s : String) : Option Int :=
  match s.data with
  | [] => none
  | ch :: rest =>
    match valueOf (ch :: rest) 0 with
    | none => none
    | some n => some (n * second)

/-- An environment in which the store and the codec never fail; the link of a key is the
key behind the address of the bucket. -/
def demoEnv : Env :=
  { formatDate := secondsFormat
    parseDate := secondsParse
    putError := fun _ _ => none
    putRead := fun _ _ => 0
    presign := fun key => .ok ("https://go-read-mail.s3.amazonaws.com/" ++ key)
    getError := fun _ => none
    encodeError := fun _ => none
    cutText := fun v => String.mk (v.data.take TotalCellChars) }

/-- A stand-in for the sort of the slices of more than twelve elements in the examples:
the insertion sort, at every length. -/
def plainSort : LongSort := fun less msgs c => insertionSort less msgs [] c

/-- An instant in the year 2022, in nanoseconds from the zero time. -/
def epoch : Int := 63800000000000000000

/-- A wall clock that starts a little more than three years after `epoch` and advances
by one nanosecond a reading, for a million readings. -/
def tickClock (i : Nat) : Int := 63900000000000000000 + min i 1000000

/-- A wall clock whose steps start two seconds apart, the two readings of one step being
a nanosecond apart; it stops after a thousand seconds. -/
def paceClock (i : Nat) : Int :=
  63900000000000000000 + min (2 * second * (i / 2) + i % 2) 1000000000000

/-- A wall clock that stands still. -/
def frozenClock (_ : Nat) : Int := 63900000000000000000

/-- A message without attachments whose date is `n` seconds after `epoch`. -/
def plainMsg (id : String) (n : Nat) : Message :=
  { Message.zero with Id := id, Date := epoch + second * n }

/-- A server without errors holding the given mailbox. -/
def quietSrv (box : List Message) : Srv :=
  { dialError := none, loginError := none, selectError := none, box := box,
    fetchError := fun _ _ => none }

/-- A mailbox of `n` messages, the message with sequence number `k` named `mk` and dated
`k` seconds after `epoch`. -/
def seqBox (n : Nat) : List Message :=
  (List.range n).map (fun i => plainMsg (String.mk ('m' :: digitsOf 10 (i + 1))) (i + 1))

/-- The user of the examples. -/
def demoUser : Mail :=
  { Addr := "imap.example.com:993", User := "ann@example.com", Pass := "secret", numMsgs := 0 }

/-- The state before the first request: an empty bucket. -/
def emptyWorld : World := { store := [], trace := { tick := 0, fetched := [] }, puts := [] }

/-- A wall clock that advances by two seconds from each reading to the next, also between
the two readings of one step. -/
def jumpClock (i : Nat) : Int := 63900000000000000000 + 2 * second * i

/-- A message dated around the year 1000, more than 292 years before the clocks of the
examples. -/
def ancientMsg : Message := { Message.zero with Id := "ancient", Date := 31500000000000000000 }

/-- A server whose every fetch reports a transfer error. -/
def brokenSrv : Srv :=
  { quietSrv (seqBox 3) with fetchError := fun _ _ => some "imap: connection closed" }

/-- A server that rejects the password. -/
def authSrv : Srv := { quietSrv (seqBox 3) with loginError := some "invalid credentials" }

/-- The ledger of a mailbox of three messages, newest first. -/
def demoLedger : Blob := .xlsx (headerRow :: (seqBox 3).reverse.map (ledgerRow demoEnv))

/-- A mailbox of two messages that carry the same date. -/
def sameDateBox : List Message := [plainMsg "a" 1, plainMsg "b" 1]

/-- The identifiers of the messages a scan returned and the ranges it requested. -/
def scanSummary (r : Option (Except String (List Message × Trace))) :
    Option (List String × List (Nat × Nat)) :=
  match r with
  | some (.ok (ms, tr)) => some (ms.map (fun m => m.Id), tr.fetched)
  | _ => none

/-- The ledger of a user in the bucket, when there is one. -/
def ledgerOf (u : Mail) (w : World) : Option Sheet :=
  match storeGet w.store (u.User ++ "/" ++ DefaultExcel) with
  | some (.xlsx s) => some s
  | _ => none

/-- What `createUserExcel` leaves behind: the ranges requested from the server and the
ledger in the bucket. -/
def createSummary (u : Mail) (r : Except String (Except String String × World)) :
    Option (List (Nat × Nat) × Option Sheet) :=
  match r with
  | .ok (_, w) => some (w.trace.fetched, ledgerOf u w)
  | .error _ => none

/-- The bucket after `createUserExcel` ran for a mailbox of three messages. -/
def builtWorld : World :=
  match createUserExcel demoEnv tickClock plainSort (quietSrv (seqBox 3))
      { demoUser with numMsgs := 3 } emptyWorld with
  | .ok (_, w) => w
  | .error _ => emptyWorld

/-- A ledger that holds as many hyperlinks as the codec allows in one sheet: below the
title row 65,530 rows of one linked cell each. -/
def fullLinks : Sheet :=
  headerRow :: List.replicate 65530 [{ value := "old", link := some "https://example.com/old" }]

/-- An environment whose codec fails to encode any workbook. -/
def failEnv : Env := { demoEnv with encodeError := fun _ => some "zip: write failed" }

/-- A message that carries one attachment, a note of two bytes. -/
def noteMsg : Message :=
  { plainMsg "note" 1 with
    Attachment := [{ Name := "note.txt", ContentType := "text/plain", Url := "", Buf := [104, 105] }] }

/-- An environment whose every `PutObject` call fails after it has read one byte. -/
def slowEnv : Env :=
  { demoEnv with putError := fun _ _ => some "RequestTimeout", putRead := fun _ _ => 1 }

/-- The attachment numbered `k` of the examples: its name is `fk`, its link the name
behind the address of the bucket. -/
def fileAtt (k : Nat) : Attachment :=
  { Name := String.mk ('f' :: digitsOf 10 k)
    ContentType := "text/plain"
    Url := "https://go-read-mail.s3.amazonaws.com/" ++ String.mk ('f' :: digitsOf 10 k)
    Buf := [] }

/-- A message that carries the attachments numbered 0 to `a - 1`. -/
def attMsg (a : Nat) : Message :=
  { plainMsg "big" 1 with Attachment := (List.range a).map fileAtt }

/-- The cell in column `col` of row `row` of a sheet, both counted from 1. -/
def cellAt (s : Sheet) (row col : Nat) : Cell :=
  readAt Cell.blank (readAt [] s (row - 1)) (col - 1)

/-- The hyperlink cell of an attachment: its name as the text, its `Url` as the target. -/
def linkCell (a : Attachment) : Cell := { value := a.Name, link := some a.Url }


/-! ## The rows `setRows` and `PrependRows` write -/

theorem length_updateAt {α : Type} (d : α) (f : α → α) (l : List α) (n : Nat) :
    n < (updateAt d f l n).length := by
  induction n generalizing l with
  | zero => cases l <;> simp [updateAt]
  | succ n ih => cases l <;> simp [updateAt, ih]

theorem updateAt_updateAt {α : Type} (d : α) (f g : α → α) (l : List α) (n : Nat) :
    updateAt d g (updateAt d f l n) n = updateAt d (fun x => g (f x)) l n := by
  induction n generalizing l with
  | zero => cases l <;> simp [updateAt]
  | succ n ih => cases l <;> simp [updateAt, ih]

theorem updateAt_id {α : Type} (d : α) (l : List α) (n : Nat) (h : n < l.length) :
    updateAt d (fun x => x) l n = l := by
  induction n generalizing l with
  | zero => cases l <;> simp_all [updateAt]
  | succ n ih =>
    cases l with
    | nil => simp at h
    | cons x xs => simp [updateAt]; exact ih xs (by simpa using h)

theorem updateAt_append {α : Type} (d : α) (f : α → α) (pre : List α) (x : α) (post : List α) :
    updateAt d f (pre ++ x :: post) pre.length = pre ++ f x :: post := by
  induction pre with
  | nil => simp [updateAt]
  | cons p ps ih => simp [updateAt, ih]

theorem updateAt_length {α : Type} (d : α) (f : α → α) (pre : List α) :
    updateAt d f pre pre.length = pre ++ [f d] := by
  induction pre with
  | nil => simp [updateAt]
  | cons p ps ih => simp [updateAt, ih]

/-- A change at one index that adds at most `k` to the measure of an element adds at most
`k` to the sum of the measures. -/
theorem sum_updateAt_le {α : Type} (μ : α → Nat) (d : α) (hd : μ d = 0) (f : α → α) (k : Nat)
    (hf : ∀ x, μ (f x) ≤ μ x + k) (l : List α) (n : Nat) :
    ((updateAt d f l n).map μ).sum ≤ (l.map μ).sum + k := by
  induction n generalizing l with
  | zero =>
    cases l with
    | nil => simpa [updateAt, hd] using hf d
    | cons x xs =>
      simp only [updateAt, List.map_cons, List.sum_cons]
      have := hf x
      omega
  | succ n ih =>
    cases l with
    | nil =>
      simp only [updateAt, List.map_cons, List.sum_cons, hd, List.map_nil, List.sum_nil]
      have := ih []
      simp only [List.map_nil, List.sum_nil] at this
      omega
    | cons x xs =>
      simp only [updateAt, List.map_cons, List.sum_cons]
      have := ih xs
      omega

theorem modifyCell_eq (s : Sheet) (r row : Nat) (f : Cell → Cell) (hrow : 0 < row)
    (htot : row ≤ TotalRows) (h : columnOf r ≠ none ∨ row - 1 < s.length) :
    modifyCell s r row f = updateAt [] (rowModify r f) s (row - 1) := by
  unfold modifyCell rowModify
  cases hc : columnOf r with
  | none =>
    simp only
    rcases h with h | h
    · exact absurd hc h
    · exact (updateAt_id [] s (row - 1) h).symm
  | some col =>
    simp only
    rw [if_neg (by omega)]

theorem rowLinks_nil : rowLinks [] = 0 := rfl

theorem linkBit_blank : linkBit Cell.blank = 0 := rfl

theorem rowLinks_rowModify_le (r : Nat) (f : Cell → Cell) (k : Nat)
    (hf : ∀ c, linkBit (f c) ≤ linkBit c + k) (cells : Row) :
    rowLinks (rowModify r f cells) ≤ rowLinks cells + k := by
  unfold rowModify
  cases columnOf r with
  | none => simp
  | some col => exact sum_updateAt_le linkBit Cell.blank linkBit_blank f k hf cells (col - 1)

/-- A change of one cell that adds at most `k` hyperlinks adds at most `k` to the number of
hyperlinks of the sheet. -/
theorem linkCount_modifyCell_le (s : Sheet) (r row : Nat) (f : Cell → Cell) (k : Nat)
    (hf : ∀ c, linkBit (f c) ≤ linkBit c + k) :
    linkCount (modifyCell s r row f) ≤ linkCount s + k := by
  unfold modifyCell
  cases columnOf r with
  | none => simp
  | some col =>
    simp only
    split_ifs
    · simp
    · exact sum_updateAt_le rowLinks [] rowLinks_nil _ k
        (fun cells => sum_updateAt_le linkBit Cell.blank linkBit_blank f k hf cells (col - 1))
        s (row - 1)

theorem linkCount_updateAt_le (s : Sheet) (g : Row → Row) (k n : Nat)
    (hg : ∀ cells, rowLinks (g cells) ≤ rowLinks cells + k) :
    linkCount (updateAt [] g s n) ≤ linkCount s + k :=
  sum_updateAt_le rowLinks [] rowLinks_nil g k hg s n

theorem linkBit_value (c : Cell) (v : String) : linkBit { c with value := v } ≤ linkBit c + 0 := by
  simp [linkBit]

theorem linkBit_link (c : Cell) (url : String) :
    linkBit { c with link := some url } ≤ linkBit c + 1 := by
  simp [linkBit]

theorem rowLinks_rowAttachments (env : Env) (atts : List Attachment) (j k : Nat) (cells : Row) :
    rowLinks (rowAttachments env atts j k cells) ≤ rowLinks cells + atts.length := by
  induction atts generalizing k cells with
  | nil => simp [rowAttachments]
  | cons att rest ih =>
    simp only [rowAttachments, List.length_cons]
    have h1 := rowLinks_rowModify_le (65 + j + k) (fun c => { c with link := some att.Url }) 1
      (fun c => linkBit_link c att.Url) cells
    have h2 := rowLinks_rowModify_le (65 + j + k)
      (fun c => { c with value := cellText env att.Name }) 0
      (fun c => linkBit_value c _)
      (rowModify (65 + j + k) (fun c => { c with link := some att.Url }) cells)
    have h3 := ih (k + 1) (rowModify (65 + j + k) (fun c => { c with value := cellText env att.Name })
      (rowModify (65 + j + k) (fun c => { c with link := some att.Url }) cells))
    omega

theorem rowLinks_rowWrite (env : Env) (msg : Message) (cells : Row) :
    rowLinks (rowWrite env msg cells) ≤ rowLinks cells + msg.Attachment.length := by
  unfold rowWrite
  refine le_trans (rowLinks_rowAttachments env _ _ _ _) ?_
  have h := fun r v cs => rowLinks_rowModify_le r (fun c => { c with value := v }) 0
    (fun c => linkBit_value c v) cs
  refine Nat.add_le_add_right ?_ _
  refine le_trans (h _ _ _) ?_
  refine le_trans (h _ _ _) ?_
  refine le_trans (h _ _ _) ?_
  refine le_trans (h _ _ _) ?_
  refine le_trans (h _ _ _) ?_
  refine le_trans (h _ _ _) ?_
  exact h _ _ _

theorem setAttachments_eq (env : Env) (atts : List Attachment) (j k dataRow : Nat) (f : Sheet)
    (hrow : 0 < dataRow) (htot : dataRow ≤ TotalRows) (hlen : dataRow - 1 < f.length)
    (hcap : linkCount f + atts.length ≤ TotalSheetHyperlinks + 1) :
    setAttachments env atts j k dataRow f
      = updateAt [] (rowAttachments env atts j k) f (dataRow - 1) := by
  induction atts generalizing k f with
  | nil =>
    simp only [setAttachments]
    exact (updateAt_id [] f (dataRow - 1) hlen).symm
  | cons att rest ih =>
    simp only [List.length_cons] at hcap
    simp only [setAttachments, SetCellValue, SetCellHyperLink]
    rw [if_neg (by omega)]
    have c1 := linkCount_modifyCell_le f (65 + j + k) dataRow
      (fun c => { c with link := some att.Url }) 1 (fun c => linkBit_link c att.Url)
    have c2 := linkCount_modifyCell_le
      (modifyCell f (65 + j + k) dataRow (fun c => { c with link := some att.Url }))
      (65 + j + k) dataRow (fun c => { c with value := cellText env att.Name }) 0
      (fun c => linkBit_value c _)
    rw [ih (k + 1) _ ?_ (by omega)]
    · rw [modifyCell_eq f _ dataRow _ hrow htot (Or.inr hlen)]
      rw [modifyCell_eq _ _ dataRow _ hrow htot (Or.inr (length_updateAt _ _ _ _)),
        updateAt_updateAt, updateAt_updateAt]
      rfl
    · rw [modifyCell_eq f _ dataRow _ hrow htot (Or.inr hlen)]
      rw [modifyCell_eq _ _ dataRow _ hrow htot (Or.inr (length_updateAt _ _ _ _))]
      exact length_updateAt _ _ _ _

theorem modifyCell_updateAt (g : Row → Row) (s : Sheet) (r row : Nat) (f : Cell → Cell)
    (hrow : 0 < row) (htot : row ≤ TotalRows) :
    modifyCell (updateAt [] g s (row - 1)) r row f
      = updateAt [] (fun x => rowModify r f (g x)) s (row - 1) := by
  rw [modifyCell_eq _ _ row _ hrow htot (Or.inr (length_updateAt _ _ _ _)), updateAt_updateAt]

/-- The writes of `setRows` for one message change the row of that message alone, when the
row is within the sheet and no hyperlink is refused. -/
theorem setFields_eq (env : Env) (msg : Message) (dataRow : Nat) (f : Sheet) (hrow : 0 < dataRow)
    (htot : dataRow ≤ TotalRows)
    (hcap : linkCount f + msg.Attachment.length ≤ TotalSheetHyperlinks + 1) :
    setFields env msg dataRow headers 0 f = updateAt [] (rowWrite env msg) f (dataRow - 1) := by
  simp only [headers, setFields, setField, SetCellValue]
  simp only [String.reduceEq, if_true, if_false, ↓reduceIte, Nat.reduceAdd]
  rw [modifyCell_eq f _ dataRow _ hrow htot (Or.inl (by decide))]
  simp only [modifyCell_updateAt _ _ _ _ _ hrow htot]
  rw [setAttachments_eq _ _ _ _ _ _ hrow htot (length_updateAt _ _ _ _) ?_, updateAt_updateAt]
  · rfl
  · have h := fun r v cs => rowLinks_rowModify_le r (fun c => { c with value := v }) 0
      (fun c => linkBit_value c v) cs
    refine le_trans (Nat.add_le_add_right (linkCount_updateAt_le f _ 0 _ ?_) _) hcap
    intro cells
    refine le_trans (h _ _ _) ?_
    refine le_trans (h _ _ _) ?_
    refine le_trans (h _ _ _) ?_
    refine le_trans (h _ _ _) ?_
    refine le_trans (h _ _ _) ?_
    refine le_trans (h _ _ _) ?_
    exact h _ _ _

theorem linkCount_setFields (env : Env) (msg : Message) (dataRow : Nat) (f : Sheet)
    (hrow : 0 < dataRow) (htot : dataRow ≤ TotalRows)
    (hcap : linkCount f + msg.Attachment.length ≤ TotalSheetHyperlinks + 1) :
    linkCount (setFields env msg dataRow headers 0 f) ≤ linkCount f + msg.Attachment.length := by
  rw [setFields_eq env msg dataRow f hrow htot hcap]
  exact linkCount_updateAt_le f _ _ _ (rowLinks_rowWrite env msg)



/-! ## The row of a message -/

theorem intercalate_go (s acc a : String) (as : List String) :
    String.intercalate.go acc s (a :: as) = acc ++ s ++ String.intercalate.go a s as := by
  induction as generalizing acc a with
  | nil => simp [String.intercalate.go]
  | cons b bs ih =>
    rw [String.intercalate.go, ih (acc ++ s ++ a) b, ih a b]
    simp [String.append_assoc]

/-- `ToString` joins the strings with a comma and a blank between them. -/
theorem ToString_eq (l : List String) : ToString l = ", ".intercalate l := by
  induction l with
  | nil => rfl
  | cons a as ih =>
    cases as with
    | nil => rfl
    | cons b bs =>
      rw [ToString, ih]
      simp only [String.intercalate]
      rw [intercalate_go]

theorem columnOf_upper (k : Nat) (h : k < 19) : columnOf (65 + 7 + k) = some (8 + k) := by
  unfold columnOf
  rw [if_pos (by omega)]
  congr 1
  omega

theorem rowModify_upper (k : Nat) (h : k < 19) (f : Cell → Cell) (cells : Row) :
    rowModify (65 + 7 + k) f cells = updateAt Cell.blank f cells (7 + k) := by
  unfold rowModify
  rw [columnOf_upper k h]
  simp only
  congr 1
  omega

/-- With at most 19 cells to write from column `H` on, the attachments are appended to a
row that ends before their first column, as hyperlink cells and in order. -/
theorem rowAttachments_append (env : Env) (atts : List Attachment) (k : Nat) (cells : Row)
    (hlen : cells.length = 7 + k) (h : k + atts.length ≤ 19) :
    rowAttachments env atts 7 k cells
      = cells ++ atts.map (fun a => { value := cellText env a.Name, link := some a.Url }) := by
  induction atts generalizing k cells with
  | nil => simp [rowAttachments]
  | cons a rest ih =>
    simp only [List.length_cons] at h
    simp only [rowAttachments]
    rw [rowModify_upper k (by omega), rowModify_upper k (by omega), ← hlen, updateAt_length]
    have e := updateAt_append Cell.blank (fun c => { c with value := cellText env a.Name }) cells
      ({ Cell.blank with link := some a.Url }) []
    rw [e, ih (k + 1) _ (by simp [hlen]; omega) (by omega)]
    simp [Cell.blank]

/-- The row the writes of `setRows` make of a blank row is the row of the message as the
specification describes it, for a message of at most 19 attachments. -/
theorem rowWrite_nil (env : Env) (msg : Message) (h : msg.Attachment.length ≤ 19) :
    rowWrite env msg [] = ledgerRow env msg := by
  have base : rowModify 71 (fun c => { c with value := cellText env (ToString msg.ReplyTo) })
      (rowModify 70 (fun c => { c with value := cellText env (ToString msg.Bcc) })
      (rowModify 69 (fun c => { c with value := cellText env (ToString msg.Cc) })
      (rowModify 68 (fun c => { c with value := cellText env msg.Subject })
      (rowModify 67 (fun c => { c with value := cellText env (ToString msg.From) })
      (rowModify 66 (fun c => { c with value := cellText env (env.formatDate msg.Date) })
      (rowModify 65 (fun c => { c with value := cellText env msg.Id }) []))))))
      = [msg.Id, env.formatDate msg.Date, ToString msg.From, msg.Subject, ToString msg.Cc,
          ToString msg.Bcc, ToString msg.ReplyTo].map
        (fun v => { value := cellText env v, link := none }) := rfl
  unfold rowWrite ledgerRow
  rw [base, rowAttachments_append env msg.Attachment 0
    ([msg.Id, env.formatDate msg.Date, ToString msg.From, msg.Subject, ToString msg.Cc,
      ToString msg.Bcc, ToString msg.ReplyTo].map
        (fun v => { value := cellText env v, link := none })) rfl (by omega)]
  simp only [ToString_eq]

/-- `setRows` fills the blank rows `InsertRows` made below the rows `pre`: each becomes the
row of its message, and the rows after them stay. -/
theorem setRowsFrom_blank (env : Env) (msgs : List Message) (i : Nat) (pre rs : List Row)
    (hpre : pre.length = i + 1) (htot : i + 1 + msgs.length ≤ TotalRows)
    (hcap : linkCount (pre ++ List.replicate msgs.length [] ++ rs)
      + (msgs.map (fun m => m.Attachment.length)).sum ≤ TotalSheetHyperlinks + 1) :
    setRowsFrom env msgs i (pre ++ List.replicate msgs.length [] ++ rs)
      = pre ++ msgs.map (fun m => rowWrite env m []) ++ rs := by
  induction msgs generalizing i pre with
  | nil => simp [setRowsFrom]
  | cons m rest ih =>
    simp only [List.length_cons, List.map_cons, List.sum_cons] at htot hcap
    have hc1 := linkCount_setFields env m (i + 2)
      (pre ++ List.replicate (rest.length + 1) [] ++ rs) (by omega) (by omega) (by omega)
    have key : setFields env m (i + 2) headers 0 (pre ++ List.replicate (rest.length + 1) [] ++ rs)
        = (pre ++ [rowWrite env m []]) ++ List.replicate rest.length [] ++ rs := by
      rw [setFields_eq env m (i + 2) _ (by omega) (by omega) (by omega)]
      have e : i + 2 - 1 = pre.length := by omega
      rw [e, List.replicate_succ, List.append_assoc, List.cons_append, updateAt_append]
      simp
    rw [key] at hc1
    simp only [setRowsFrom, List.length_cons, List.map_cons]
    rw [key, ih (i + 1) (pre ++ [rowWrite env m []]) (by simp [hpre]) (by omega) (by omega)]
    simp

/-- `setRows` on a sheet that ends with the rows `pre` appends the rows of the messages. -/
theorem setRowsFrom_end (env : Env) (msgs : List Message) (i : Nat) (pre : List Row)
    (hpre : pre.length = i + 1) (htot : i + 1 + msgs.length ≤ TotalRows)
    (hcap : linkCount pre + (msgs.map (fun m => m.Attachment.length)).sum
      ≤ TotalSheetHyperlinks + 1) :
    setRowsFrom env msgs i pre = pre ++ msgs.map (fun m => rowWrite env m []) := by
  induction msgs generalizing i pre with
  | nil => simp [setRowsFrom]
  | cons m rest ih =>
    simp only [List.length_cons, List.map_cons, List.sum_cons] at htot hcap
    have hc1 := linkCount_setFields env m (i + 2) pre (by omega) (by omega) (by omega)
    have key : setFields env m (i + 2) headers 0 pre = pre ++ [rowWrite env m []] := by
      rw [setFields_eq env m (i + 2) _ (by omega) (by omega) (by omega)]
      have e : i + 2 - 1 = pre.length := by omega
      rw [e, updateAt_length]
    rw [key] at hc1
    simp only [setRowsFrom, List.map_cons]
    rw [key, ih (i + 1) (pre ++ [rowWrite env m []]) (by simp [hpre]) (by omega) (by omega)]
    simp

theorem linkCount_insert (pre rs : List Row) (n : Nat) :
    linkCount (pre ++ List.replicate n [] ++ rs) = linkCount (pre ++ rs) := by
  simp [linkCount, rowLinks_nil]

/-- `PrependRows` encodes the title row, the rows of the new messages and the old rows,
when the rows stay within the sheet and no hyperlink is refused. -/
theorem PrependRows_eq (env : Env) (h : Row) (rs : List Row) (msgs : List Message)
    (hne : msgs ≠ []) (hrows : (h :: rs).length + msgs.length ≤ TotalRows)
    (hcap : linkCount (h :: rs) + (msgs.map (fun m => m.Attachment.length)).sum
      ≤ TotalSheetHyperlinks + 1) :
    PrependRows env (.xlsx (h :: rs)) msgs
      = save env (h :: (msgs.map (fun m => rowWrite env m []) ++ rs)) := by
  have hlen : 0 < msgs.length := List.length_pos.mpr hne
  simp only [List.length_cons] at hrows
  have hT : TotalRows = 1048576 := rfl
  unfold PrependRows OpenReader InsertRows
  simp only [show ¬ (2 < 1) by omega, if_false,
    show ¬ (TotalRows ≤ 2 ∨ TotalRows ≤ msgs.length) by omega,
    show ¬ (msgs.length < 1) by omega]
  cases rs with
  | nil =>
    simp only [List.length_singleton, show (1 < 2) by omega, if_true, setRows]
    rw [setRowsFrom_end env msgs 0 [h] rfl (by simp at hrows; omega) hcap]
    simp
  | cons r rs1 =>
    simp only [List.length_cons] at hrows
    simp only [List.length_cons, show ¬ (rs1.length + 1 + 1 < 2) by omega, if_false, setRows,
      show ¬ (TotalRows < rs1.length + 1 + 1 + msgs.length) by omega]
    have : List.take (2 - 1) (h :: r :: rs1) ++ List.replicate msgs.length []
        ++ List.drop (2 - 1) (h :: r :: rs1)
        = [h] ++ List.replicate msgs.length [] ++ (r :: rs1) := by simp
    rw [this, setRowsFrom_blank env msgs 0 [h] (r :: rs1) rfl (by omega)
      (by rw [linkCount_insert]; exact hcap)]
    simp



/-! ## The limits of the codec -/

theorem InsertRows_many (s : Sheet) (n : Nat) (h : TotalRows ≤ n) :
    InsertRows s 2 n = .error "row number exceeds maximum limit" := by
  unfold InsertRows
  rw [if_neg (by omega), if_pos (Or.inr h)]

/-- `PrependRows` refuses as many messages as a sheet has rows. -/
theorem PrependRows_many (env : Env) (s : Sheet) (msgs : List Message)
    (h : TotalRows ≤ msgs.length) :
    PrependRows env (.xlsx s) msgs = .error "row number exceeds maximum limit" := by
  unfold PrependRows OpenReader
  simp only
  rw [InsertRows_many _ _ h]

theorem InsertRows_full (s : Sheet) (n : Nat) (h1 : 2 ≤ s.length) (h2 : 1 ≤ n)
    (h : TotalRows < s.length + n) :
    InsertRows s 2 n = .error "row number exceeds maximum limit" := by
  unfold InsertRows
  rw [if_neg (by omega)]
  split_ifs <;> first | rfl | omega

/-- `PrependRows` refuses messages that would move a data row past the last row of a
sheet. -/
theorem PrependRows_full (env : Env) (s : Sheet) (msgs : List Message)
    (h1 : 2 ≤ s.length) (h2 : msgs ≠ []) (h : TotalRows < s.length + msgs.length) :
    PrependRows env (.xlsx s) msgs = .error "row number exceeds maximum limit" := by
  unfold PrependRows OpenReader
  simp only
  rw [InsertRows_full _ _ h1 (List.length_pos.mpr h2) h]

/-- A change at one index that keeps the measure of an element keeps the sum of the
measures. -/
theorem sum_updateAt_eq {α : Type} (μ : α → Nat) (d : α) (hd : μ d = 0) (f : α → α)
    (hf : ∀ x, μ (f x) = μ x) (l : List α) (n : Nat) :
    ((updateAt d f l n).map μ).sum = (l.map μ).sum := by
  induction n generalizing l with
  | zero =>
    cases l with
    | nil => simp [updateAt, hf, hd]
    | cons x xs => simp [updateAt, hf]
  | succ n ih =>
    cases l with
    | nil =>
      simp only [updateAt, List.map_cons, List.sum_cons, hd, List.map_nil, List.sum_nil]
      have := ih []
      simp only [List.map_nil, List.sum_nil] at this
      omega
    | cons x xs =>
      simp only [updateAt, List.map_cons, List.sum_cons]
      rw [ih xs]

/-- Writing the text of a cell keeps the number of hyperlinks of the sheet. -/
theorem linkCount_SetCellValue (env : Env) (s : Sheet) (r row : Nat) (v : String) :
    linkCount (SetCellValue env s r row v) = linkCount s := by
  unfold SetCellValue modifyCell
  cases columnOf r with
  | none => rfl
  | some col =>
    simp only
    split_ifs
    · rfl
    · exact sum_updateAt_eq rowLinks [] rowLinks_nil _
        (fun cells => sum_updateAt_eq linkBit Cell.blank linkBit_blank _
          (fun c => by simp [linkBit]) cells (col - 1)) s (row - 1)

theorem rowLinks_rowModify_value (r : Nat) (v : String) (cells : Row) :
    rowLinks (rowModify r (fun c => { c with value := v }) cells) = rowLinks cells := by
  unfold rowModify
  cases columnOf r with
  | none => rfl
  | some col =>
    exact sum_updateAt_eq linkBit Cell.blank linkBit_blank _ (fun c => by simp [linkBit]) cells
      (col - 1)

/-- On a sheet that holds more hyperlinks than the codec allows, `setRows` writes the name
of every attachment and the hyperlink of none. -/
theorem setAttachments_refused (env : Env) (atts : List Attachment) (j k dataRow : Nat)
    (f : Sheet) (hrow : 0 < dataRow) (htot : dataRow ≤ TotalRows) (hlen : dataRow - 1 < f.length)
    (h : TotalSheetHyperlinks < linkCount f) :
    setAttachments env atts j k dataRow f
      = updateAt [] (rowNames env atts j k) f (dataRow - 1) := by
  induction atts generalizing k f with
  | nil =>
    simp only [setAttachments]
    exact (updateAt_id [] f (dataRow - 1) hlen).symm
  | cons att rest ih =>
    simp only [setAttachments, SetCellHyperLink, if_pos h]
    have hc := linkCount_SetCellValue env f (65 + j + k) dataRow att.Name
    have he : SetCellValue env f (65 + j + k) dataRow att.Name
        = updateAt [] (rowModify (65 + j + k) (fun c => { c with value := cellText env att.Name }))
            f (dataRow - 1) := by
      unfold SetCellValue
      exact modifyCell_eq f _ dataRow _ hrow htot (Or.inr hlen)
    rw [ih (k + 1) _ (by rw [he]; exact length_updateAt _ _ _ _) (by rw [hc]; exact h), he,
      updateAt_updateAt]
    rfl

theorem setFields_refused (env : Env) (msg : Message) (dataRow : Nat) (f : Sheet)
    (hrow : 0 < dataRow) (htot : dataRow ≤ TotalRows) (h : TotalSheetHyperlinks < linkCount f) :
    setFields env msg dataRow headers 0 f = updateAt [] (rowText env msg) f (dataRow - 1) := by
  simp only [headers, setFields, setField, SetCellValue]
  simp only [String.reduceEq, if_true, if_false, ↓reduceIte, Nat.reduceAdd]
  rw [modifyCell_eq f _ dataRow _ hrow htot (Or.inl (by decide))]
  simp only [modifyCell_updateAt _ _ _ _ _ hrow htot]
  rw [setAttachments_refused _ _ _ _ _ _ hrow htot (length_updateAt _ _ _ _) ?_, updateAt_updateAt]
  · rfl
  · have e := sum_updateAt_eq rowLinks [] rowLinks_nil
      (fun x => rowModify 71 (fun c => { c with value := cellText env (ToString msg.ReplyTo) })
        (rowModify 70 (fun c => { c with value := cellText env (ToString msg.Bcc) })
        (rowModify 69 (fun c => { c with value := cellText env (ToString msg.Cc) })
        (rowModify 68 (fun c => { c with value := cellText env msg.Subject })
        (rowModify 67 (fun c => { c with value := cellText env (ToString msg.From) })
        (rowModify 66 (fun c => { c with value := cellText env (env.formatDate msg.Date) })
        (rowModify 65 (fun c => { c with value := cellText env msg.Id }) x)))))))
      (fun cells => by simp only [rowLinks_rowModify_value]) f (dataRow - 1)
    unfold linkCount at h ⊢
    rw [e]
    exact h

/-- One message prepended to a ledger that holds more hyperlinks than the codec allows:
its row holds the names of its attachments and no hyperlink. -/
theorem PrependRows_refused (env : Env) (msg : Message) (h r0 : Row) (rest : List Row)
    (hcap : TotalSheetHyperlinks < linkCount (h :: r0 :: rest))
    (hrows : rest.length + 3 ≤ TotalRows) :
    PrependRows env (.xlsx (h :: r0 :: rest)) [msg]
      = save env (h :: rowText env msg [] :: r0 :: rest) := by
  have hI : InsertRows (h :: r0 :: rest) 2 [msg].length = .ok (h :: [] :: r0 :: rest) := by
    unfold InsertRows
    simp only [List.length_cons, List.length_nil]
    rw [if_neg (by omega), if_neg (by unfold TotalRows; omega), if_neg (by omega),
      if_neg (by omega), if_neg (by omega)]
    rfl
  have hc0 : TotalSheetHyperlinks < linkCount (h :: [] :: r0 :: rest) := by
    simpa [linkCount, rowLinks_nil] using hcap
  unfold PrependRows OpenReader
  simp only [hI, setRows, setRowsFrom]
  rw [setFields_refused env msg (0 + 2) _ (by omega) (by unfold TotalRows; omega) hc0]
  rfl

theorem linkCount_replicate (h r : Row) (n : Nat) :
    linkCount (h :: List.replicate n r) = rowLinks h + n * rowLinks r := by
  unfold linkCount
  rw [List.map_cons, List.sum_cons, List.map_replicate, List.sum_replicate, smul_eq_mul]

theorem linkCount_fullLinks : linkCount fullLinks = 65530 := by
  have h1 : rowLinks headerRow = 0 := rfl
  have h2 : rowLinks [({ value := "old", link := some "https://example.com/old" } : Cell)] = 1 :=
    rfl
  have h3 : linkCount fullLinks = rowLinks headerRow
      + 65530 * rowLinks [({ value := "old", link := some "https://example.com/old" } : Cell)] :=
    linkCount_replicate _ _ _
  rw [h3, h1, h2]

theorem save_demoEnv (s : Sheet) : save demoEnv s = .ok (.xlsx s) := rfl

theorem fullLinks_cons : fullLinks
    = headerRow :: [{ value := "old", link := some "https://example.com/old" }]
      :: List.replicate 65529 [{ value := "old", link := some "https://example.com/old" }] :=
  congrArg (List.cons headerRow) (List.replicate_succ _ 65529)



/-! ## The uploads of `uploadAttachments` -/

theorem uploadMessage_spec (env : Env) (u : Mail) (id : String) (atts : List Attachment) (w : World) :
    (uploadMessage env u id atts w).2.puts = w.puts ++ atts.map (attachmentKey u id)
    ∧ (uploadMessage env u id atts w).1.length = atts.length
    ∧ ∀ k a, atts[k]? = some a → ∃ b, (uploadMessage env u id atts w).1[k]? = some b
        ∧ Uploaded env (w.puts.length + k) (attachmentKey u id a) a b := by
  induction atts generalizing w with
  | nil => simp [uploadMessage]
  | cons att rest ih =>
    have hw : (UploadFile env (u.User ++ "/" ++ id ++ "/" ++ att.Name) (.raw att.Buf) w).2.puts
        = w.puts ++ [attachmentKey u id att] := by
      unfold UploadFile attachmentKey
      cases env.putError w.puts.length (u.User ++ "/" ++ id ++ "/" ++ att.Name) <;> rfl
    obtain ⟨h1, h2, h3⟩ := ih (UploadFile env (u.User ++ "/" ++ id ++ "/" ++ att.Name) (.raw att.Buf) w).2
    refine ⟨?_, ?_, ?_⟩
    · simp only [uploadMessage, h1, hw]; simp
    · simp only [uploadMessage, List.length_cons, h2]
    · intro k a hk
      cases k with
      | zero =>
        simp only [List.getElem?_cons_zero, Option.some.injEq] at hk
        subst hk
        refine ⟨_, by simp only [uploadMessage, List.getElem?_cons_zero]; rfl, ?_⟩
        simp only [Uploaded, UploadFile, GetFileLink, attachmentKey, Nat.add_zero, unread]
        cases hp : env.putError w.puts.length (u.User ++ "/" ++ id ++ "/" ++ att.Name) with
        | some e => simp
        | none =>
          cases hs : env.presign (u.User ++ "/" ++ id ++ "/" ++ att.Name) with
          | error e => simp
          | ok url => simp
      | succ k =>
        simp only [List.getElem?_cons_succ] at hk
        obtain ⟨b, hb, hU⟩ := h3 k a hk
        refine ⟨b, by simpa only [uploadMessage, List.getElem?_cons_succ] using hb, ?_⟩
        rw [hw] at hU
        simpa [Nat.add_assoc, Nat.add_comm 1 k] using hU

/-- The counterexample of C6: a message whose attachment holds two bytes. After
`uploadAttachments` the buffer of the attachment is empty: the upload read it, and the
bytes are in the bucket. When the upload fails after it has read one byte, the buffer
holds the other byte and `Url` is still empty. So `Buf`, a field other than `Url`, is not
unchanged. -/
theorem uploadAttachments_drains_buffer :
    noteMsg.Attachment.map (fun a => (a.Url, a.Buf)) = [("", [104, 105])]
    ∧ (uploadAttachments demoEnv demoUser [noteMsg] emptyWorld).1.map
        (fun m => m.Attachment.map (fun a => (a.Url, a.Buf)))
      = [[("https://go-read-mail.s3.amazonaws.com/ann@example.com/note/note.txt", [])]]
    ∧ storeGet (uploadAttachments demoEnv demoUser [noteMsg] emptyWorld).2.store
        "ann@example.com/note/note.txt" = some (.raw [104, 105])
    ∧ (uploadAttachments slowEnv demoUser [noteMsg] emptyWorld).1.map
        (fun m => m.Attachment.map (fun a => (a.Url, a.Buf))) = [[("", [105])]] := by
  decide

/-- C6 as amended: `uploadAttachments` makes one `PutObject` call for each attachment, in
order, under the key `User/Id/Name`; it returns as many messages, each with every field
but the attachments as before and with as many attachments; each attachment keeps its
name and its type; its `Url` is the link returned for its key when its own upload
succeeded and is unchanged (empty, for a fetched message) when its own upload failed,
whatever happened to the other uploads; and its buffer, which the upload reads, is empty
after a `PutObject` call that succeeded and holds the bytes not yet read after one that
failed. -/
theorem uploadAttachments_spec (env : Env) (u : Mail) (msgs : List Message) (w : World) :
    (uploadAttachments env u msgs w).2.puts
      = w.puts ++ (msgs.map (fun m => m.Attachment.map (attachmentKey u m.Id))).flatten
    ∧ (uploadAttachments env u msgs w).1.length = msgs.length
    ∧ ∀ i m, msgs[i]? = some m → ∃ m1, (uploadAttachments env u msgs w).1[i]? = some m1
        ∧ { m1 with Attachment := m.Attachment } = m
        ∧ m1.Attachment.length = m.Attachment.length
        ∧ ∀ k a, m.Attachment[k]? = some a → ∃ b, m1.Attachment[k]? = some b
            ∧ Uploaded env (w.puts.length + uploadIndex msgs i k) (attachmentKey u m.Id a) a b := by
  induction msgs generalizing w with
  | nil => simp [uploadAttachments]
  | cons msg rest ih =>
    obtain ⟨m1, m2, m3⟩ := uploadMessage_spec env u msg.Id msg.Attachment w
    obtain ⟨h1, h2, h3⟩ := ih (uploadMessage env u msg.Id msg.Attachment w).2
    refine ⟨?_, ?_, ?_⟩
    · simp only [uploadAttachments, h1, m1]; simp
    · simp only [uploadAttachments, List.length_cons, h2]
    · intro i m hi
      cases i with
      | zero =>
        simp only [List.getElem?_cons_zero, Option.some.injEq] at hi
        subst hi
        refine ⟨{ msg with Attachment := (uploadMessage env u msg.Id msg.Attachment w).1 },
          by simp only [uploadAttachments, List.getElem?_cons_zero], rfl, m2, ?_⟩
        intro k a hk
        obtain ⟨b, hb, hU⟩ := m3 k a hk
        exact ⟨b, hb, by simpa [uploadIndex] using hU⟩
      | succ i =>
        simp only [List.getElem?_cons_succ] at hi
        obtain ⟨m', hm', hf, hl, hA⟩ := h3 i m hi
        refine ⟨m', by simpa only [uploadAttachments, List.getElem?_cons_succ] using hm', hf, hl, ?_⟩
        intro k a hk
        obtain ⟨b, hb, hU⟩ := hA k a hk
        refine ⟨b, hb, ?_⟩
        rw [m1] at hU
        have e : (w.puts ++ List.map (attachmentKey u msg.Id) msg.Attachment).length + uploadIndex rest i k
            = w.puts.length + uploadIndex (msg :: rest) (i + 1) k := by
          simp [uploadIndex]; omega
        rw [e] at hU
        exact hU



/-! ## The insertion sort -/

theorem insertBack_perm (less : Less) (rp : List Message) (x : Message) (c : Nat) :
    (insertBack less rp x c).1.Perm (x :: rp) := by
  induction rp generalizing c with
  | nil => simp [insertBack]
  | cons y rp ih =>
    unfold insertBack
    split
    · exact ((ih (c + 1)).cons y).trans (List.Perm.swap x y rp)
    · exact List.Perm.refl _

theorem insertionSort_perm (less : Less) (todo rp : List Message) (c : Nat) :
    (insertionSort less todo rp c).1.Perm (todo ++ rp) := by
  induction todo generalizing rp c with
  | nil => simp [insertionSort]
  | cons x todo ih =>
    simp only [insertionSort]
    refine (ih _ _).trans ?_
    refine ((insertBack_perm less rp x c).append_left todo).trans ?_
    exact List.perm_middle

theorem insertBack_tick (less : Less) (rp : List Message) (x : Message) (c : Nat) :
    c ≤ (insertBack less rp x c).2 := by
  induction rp generalizing c with
  | nil => simp [insertBack]
  | cons y rp ih =>
    unfold insertBack
    split
    · exact Nat.le_trans (by omega) (ih (c + 1))
    · simp

theorem insertionSort_tick (less : Less) (todo rp : List Message) (c : Nat) :
    c ≤ (insertionSort less todo rp c).2 := by
  induction todo generalizing rp c with
  | nil => simp [insertionSort]
  | cons x todo ih =>
    simp only [insertionSort]
    exact Nat.le_trans (insertBack_tick less rp x c) (ih _ _)

theorem insertBack_sorted (less : Less) (all : List Message) (hl : SoundLess less all)
    (rp : List Message) (x : Message) (c : Nat) (hx : x ∈ all) (hrp : ∀ m ∈ rp, m ∈ all)
    (hs : rp.Pairwise (fun a b => a.Date ≤ b.Date)) :
    (insertBack less rp x c).1.Pairwise (fun a b => a.Date ≤ b.Date) := by
  induction rp generalizing c with
  | nil => simp [insertBack]
  | cons y rp ih =>
    have hy := hrp y (List.mem_cons_self _ _)
    rw [List.pairwise_cons] at hs
    unfold insertBack
    cases hv : less c x y with
    | true =>
      simp only [if_true]
      rw [List.pairwise_cons]
      refine ⟨?_, ih (c + 1) (fun m hm => hrp m (List.mem_cons_of_mem _ hm)) hs.2⟩
      intro m hm
      rcases List.mem_cons.mp ((insertBack_perm less rp x (c + 1)).mem_iff.mp hm) with e | hm'
      · rw [e]; exact (hl c x y hx hy).1 hv
      · exact hs.1 m hm'
    | false =>
      simp only [Bool.false_eq_true, if_false]
      have hxy := (hl c x y hx hy).2 hv
      rw [List.pairwise_cons, List.pairwise_cons]
      refine ⟨?_, hs⟩
      intro m hm
      rcases List.mem_cons.mp hm with e | hm'
      · rw [e]; exact hxy
      · exact hxy.trans (hs.1 m hm')

theorem insertionSort_sorted (less : Less) (all : List Message) (hl : SoundLess less all)
    (todo rp : List Message) (c : Nat)
    (ht : ∀ m ∈ todo, m ∈ all) (hrp : ∀ m ∈ rp, m ∈ all)
    (hs : rp.Pairwise (fun a b => a.Date ≤ b.Date)) :
    Descending (insertionSort less todo rp c).1 := by
  induction todo generalizing rp c with
  | nil =>
    simp only [insertionSort, Descending, List.pairwise_reverse]
    exact hs
  | cons x todo ih =>
    simp only [insertionSort]
    apply ih
    · exact fun m hm => ht m (List.mem_cons_of_mem _ hm)
    · intro m hm
      rcases List.mem_cons.mp ((insertBack_perm less rp x c).mem_iff.mp hm) with e | hm'
      · rw [e]; exact ht x (List.mem_cons_self _ _)
      · exact hrp m hm'
    · exact insertBack_sorted less all hl rp x c (ht x (List.mem_cons_self _ _)) hrp hs

/-- The insertion sort, run at every length, does what is asked of the sort of the long
slices, whatever the clock. -/
theorem plainSort_spec (clock : Nat → Int) : LongSortSpec plainSort clock := by
  intro msgs c _
  refine ⟨?_, insertionSort_tick _ msgs [] c, ?_⟩
  · simpa [plainSort] using insertionSort_perm (sortLess clock) msgs [] c
  · intro hl
    exact insertionSort_sorted (sortLess clock) msgs hl msgs [] c (fun m hm => hm) (by simp)
      List.Pairwise.nil

/-! ## `sortMsgs` under a steady clock -/

/-- `sortMsgs` permutes its input, whatever the clock. -/
theorem sortMsgs_perm (clock : Nat → Int) (long : LongSort) (hl : LongSortSpec long clock)
    (msgs : List Message) (c : Nat) : (sortMsgs clock long msgs c).1.Perm msgs := by
  unfold sortMsgs
  split
  · simpa using insertionSort_perm (sortLess clock) msgs [] c
  · exact (hl msgs c (by omega)).1

theorem sortMsgs_tick (clock : Nat → Int) (long : LongSort) (hl : LongSortSpec long clock)
    (msgs : List Message) (c : Nat) : c ≤ (sortMsgs clock long msgs c).2 := by
  unfold sortMsgs
  split
  · exact insertionSort_tick _ msgs [] c
  · exact (hl msgs c (by omega)).2.1

theorem timeSub_plain (clock : Nat → Int) (d : Int) (h : PlainDate clock d) (i : Nat) :
    timeSub (clock i) d = clock i - d := by
  have := h.2 i
  unfold timeSub
  rw [if_neg (by omega), if_neg (by omega)]

theorem steady_mono (clock : Nat → Int) (h : SteadyClock clock) (i j : Nat) (hij : i ≤ j) :
    clock i ≤ clock j := by
  induction j with
  | zero => simp_all
  | succ j ih =>
    rcases Nat.eq_or_lt_of_le hij with e | l
    · rw [e]
    · exact (ih (by omega)).trans (h.1 j)

theorem sortLess_true (clock : Nat → Int) (hc : SteadyClock clock) (c : Nat) (x y : Message)
    (hx : PlainDate clock x.Date) (hy : PlainDate clock y.Date)
    (h : sortLess clock c x y = true) : y.Date ≤ x.Date := by
  simp only [sortLess, timeSince, decide_eq_true_eq] at h
  rw [timeSub_plain clock _ hx, timeSub_plain clock _ hy] at h
  obtain ⟨k, hk⟩ := hx.1
  obtain ⟨l, hl⟩ := hy.1
  have := hc.2 c
  simp only [second] at *
  omega

theorem sortLess_false (clock : Nat → Int) (hc : SteadyClock clock) (c : Nat) (x y : Message)
    (hx : PlainDate clock x.Date) (hy : PlainDate clock y.Date)
    (h : sortLess clock c x y = false) : x.Date ≤ y.Date := by
  simp only [sortLess, timeSince, decide_eq_false_iff_not, not_lt] at h
  rw [timeSub_plain clock _ hx, timeSub_plain clock _ hy] at h
  have := hc.1 (2 * c)
  omega

/-- Under a steady clock every answer of the comparator of `sortMsgs` on messages of
plain dates agrees with the order of the dates. -/
theorem sortLess_sound (clock : Nat → Int) (hc : SteadyClock clock) (msgs : List Message)
    (h : ∀ m ∈ msgs, PlainDate clock m.Date) : SoundLess (sortLess clock) msgs :=
  fun e x y hx hy => ⟨sortLess_true clock hc e x y (h x hx) (h y hy),
    sortLess_false clock hc e x y (h x hx) (h y hy)⟩

/-- Under a steady clock, `sortMsgs` puts messages of plain dates in descending order. -/
theorem sortMsgs_sorted (clock : Nat → Int) (hc : SteadyClock clock) (long : LongSort)
    (hl : LongSortSpec long clock) (msgs : List Message)
    (c : Nat) (h : ∀ m ∈ msgs, PlainDate clock m.Date) :
    Descending (sortMsgs clock long msgs c).1 := by
  unfold sortMsgs
  split
  · exact insertionSort_sorted (sortLess clock) msgs (sortLess_sound clock hc msgs h) msgs [] c
      (fun m hm => hm) (by simp) List.Pairwise.nil
  · exact (hl msgs c (by omega)).2.2 (sortLess_sound clock hc msgs h)



/-! ## The scan of `FetchAfter` -/

theorem delivered_mem (box : List Message) (from_ to_ : Nat) (m : Message)
    (h : m ∈ delivered box from_ to_) : m ∈ box :=
  List.mem_of_mem_drop (List.mem_of_mem_take h)

theorem delivered_length (box : List Message) (from_ to_ : Nat)
    (h1 : 1 ≤ from_) (h2 : from_ ≤ to_ + 1) (h3 : to_ ≤ box.length) :
    (delivered box from_ to_).length = to_ + 1 - from_ := by
  simp only [delivered, List.length_take, List.length_drop]
  omega

theorem sub32_eq (a b : Nat) (ha : a < u32) (hb : b ≤ a) : sub32 a b = a - b := by
  unfold sub32
  have hb' : b < u32 := by omega
  rw [Nat.mod_eq_of_lt ha, Nat.mod_eq_of_lt hb']
  have : a + u32 - b = (a - b) + u32 := by omega
  rw [this, Nat.add_mod_right, Nat.mod_eq_of_lt (by omega)]

theorem Fetch_mem (clock : Nat → Int) (long : LongSort) (hl : LongSortSpec long clock)
    (srv : Srv) (from_ to_ : Nat) (tr : Trace) (batch : List Message) (tr1 : Trace)
    (h1 : 1 ≤ from_) (h2 : from_ ≤ to_ + 1) (h3 : to_ ≤ srv.box.length) (h4 : to_ < u32)
    (h : Fetch clock long srv from_ to_ tr = .ok (batch, tr1)) :
    batch.Perm (delivered srv.box from_ to_) ∧ tr.tick ≤ tr1.tick
      ∧ tr1.fetched = tr.fetched ++ [(from_, to_)] := by
  unfold Fetch at h
  have hn : add32 (sub32 to_ from_) 1 = to_ + 1 - from_ := by
    unfold add32 sub32 u32
    unfold u32 at h4
    omega
  simp only [hn, delivered_length srv.box from_ to_ h1 h2 h3, Nat.sub_self, List.replicate_zero,
    List.append_nil] at h
  cases hf : srv.fetchError from_ to_ with
  | some e => simp [hf] at h
  | none =>
    simp only [hf, Except.ok.injEq, Prod.mk.injEq] at h
    obtain ⟨hb, ht⟩ := h
    subst hb ht
    exact ⟨sortMsgs_perm _ _ hl _ _, sortMsgs_tick _ _ hl _ _, rfl⟩

theorem scanBatch_kept (clock : Nat → Int) (since : Int) (tick0 : Nat) (box batch acc : List Message)
    (c : Nat) (hb : ∀ m ∈ batch, m ∈ box) (ha : ∀ m ∈ acc, Kept clock since tick0 box m)
    (hc : tick0 ≤ c) :
    (∀ m ∈ (scanBatch clock since batch acc c).2.1, Kept clock since tick0 box m)
      ∧ c ≤ (scanBatch clock since batch acc c).2.2 := by
  induction batch generalizing acc c with
  | nil => simpa [scanBatch] using ha
  | cons m rest ih =>
    unfold scanBatch
    by_cases ht : since < timeSince clock (2 * c) m.Date
    · rw [if_pos ht]
      exact ⟨ha, by simp⟩
    · rw [if_neg ht]
      have := ih (acc ++ [m]) (c + 1) (fun x hx => hb x (List.mem_cons_of_mem _ hx))
        (by
          intro x hx
          rcases List.mem_append.mp hx with h | h
          · exact ha x h
          · rw [List.mem_singleton.mp h]
            exact ⟨hb m (List.mem_cons_self _ _), c, hc, ht⟩)
        (by omega)
      exact ⟨this.1, by omega⟩

theorem fetchLoop_kept (clock : Nat → Int) (long : LongSort) (hl : LongSortSpec long clock)
    (srv : Srv) (since : Int) (tick0 fuel : Nat) :
    ∀ (found : Bool) (from_ to_ : Nat) (msgs : List Message) (tr : Trace)
      (ms : List Message) (tr1 : Trace),
      to_ ≤ srv.box.length → to_ < u32 → (10 ≤ to_ → from_ = to_ - 9) → tick0 ≤ tr.tick →
      (∀ m ∈ msgs, Kept clock since tick0 srv.box m) →
      fetchLoop clock long srv since fuel found from_ to_ msgs tr = some (.ok (ms, tr1)) →
      (∀ m ∈ ms, Kept clock since tick0 srv.box m) ∧ tick0 ≤ tr1.tick := by
  induction fuel with
  | zero =>
    intro found from_ to_ msgs tr ms tr1 _ _ _ ht hk h
    unfold fetchLoop at h
    split at h
    · simp at h
    · simp only [Option.some.injEq, Except.ok.injEq, Prod.mk.injEq] at h
      obtain ⟨h1, h2⟩ := h
      subst h1 h2
      exact ⟨hk, ht⟩
  | succ fuel ih =>
    intro found from_ to_ msgs tr ms tr1 hbox hu hfrom ht hk h
    unfold fetchLoop at h
    split at h
    · rename_i hcond
      simp only [Bool.and_eq_true, Bool.not_eq_true', decide_eq_true_eq] at hcond
      obtain ⟨⟨_, hf0⟩, ht0⟩ := hcond
      have hf1 : 1 ≤ (if to_ < 10 then 1 else from_) ∧ (if to_ < 10 then 1 else from_) ≤ to_ := by
        split <;> omega
      generalize hfr : (if to_ < 10 then 1 else from_) = from1 at h hf1
      cases hF : Fetch clock long srv from1 to_ tr with
      | error e => simp [hF] at h
      | ok r =>
        obtain ⟨batch, tra⟩ := r
        simp only [hF] at h
        obtain ⟨hp, htk, _⟩ := Fetch_mem clock long hl srv from1 to_ tr batch tra hf1.1 (by omega) hbox hu hF
        have hs := scanBatch_kept clock since tick0 srv.box batch msgs tra.tick
          (fun m hm => delivered_mem _ _ _ _ (hp.mem_iff.mp hm)) hk (by omega)
        have e1 : sub32 from1 1 = from1 - 1 := sub32_eq from1 1 (by omega) hf1.1
        refine ih _ _ _ _ _ ms tr1 ?_ ?_ ?_ ?_ hs.1 h
        · rw [e1]; omega
        · rw [e1]; omega
        · intro h10
          rw [e1] at h10 ⊢
          exact sub32_eq _ 9 (by omega) (by omega)
        · exact Nat.le_trans (by omega : tick0 ≤ tra.tick) hs.2
    · simp only [Option.some.injEq, Except.ok.injEq, Prod.mk.injEq] at h
      obtain ⟨h1, h2⟩ := h
      subst h1 h2
      exact ⟨hk, ht⟩

theorem fetchLoop_isSome (clock : Nat → Int) (long : LongSort) (srv : Srv) (since : Int)
    (fuel : Nat) :
    ∀ (found : Bool) (from_ to_ : Nat) (msgs : List Message) (tr : Trace),
      to_ ≤ srv.box.length → to_ < u32 → (10 ≤ to_ → from_ = to_ - 9) → to_ ≤ fuel →
      ∃ r, fetchLoop clock long srv since fuel found from_ to_ msgs tr = some r := by
  induction fuel with
  | zero =>
    intro found from_ to_ msgs tr _ _ _ hfuel
    unfold fetchLoop
    have : to_ = 0 := by omega
    subst this
    simp
  | succ fuel ih =>
    intro found from_ to_ msgs tr hbox hu hfrom hfuel
    unfold fetchLoop
    split
    · rename_i hcond
      simp only [Bool.and_eq_true, Bool.not_eq_true', decide_eq_true_eq] at hcond
      obtain ⟨⟨_, hf0⟩, ht0⟩ := hcond
      have hf1 : 1 ≤ (if to_ < 10 then 1 else from_) ∧ (if to_ < 10 then 1 else from_) ≤ to_ := by
        split <;> omega
      generalize (if to_ < 10 then 1 else from_) = from1 at hf1
      simp only
      cases hF : Fetch clock long srv from1 to_ tr with
      | error e => exact ⟨_, rfl⟩
      | ok r =>
        obtain ⟨batch, tra⟩ := r
        simp only
        have e1 : sub32 from1 1 = from1 - 1 := sub32_eq from1 1 (by omega) hf1.1
        refine ih _ _ _ _ _ ?_ ?_ ?_ ?_
        · rw [e1]; omega
        · rw [e1]; omega
        · intro h10
          rw [e1] at h10 ⊢
          exact sub32_eq _ 9 (by omega) (by omega)
        · rw [e1]; omega
    · exact ⟨_, rfl⟩

/-- The fuel of `FetchAfter` suffices: `to` decreases with every batch, so the loop ends
within `numMsgs + 1` iterations and `FetchAfter` has a result. -/
theorem FetchAfter_isSome (clock : Nat → Int) (long : LongSort) (srv : Srv) (u : Mail)
    (t : Int) (tr : Trace) (hn : u.numMsgs ≤ srv.box.length) (hu : u.numMsgs < u32) :
    ∃ r, FetchAfter clock long srv u t tr = some r := by
  unfold FetchAfter
  obtain ⟨r, hr⟩ := fetchLoop_isSome clock long srv (timeSince clock (2 * tr.tick) t)
    (u.numMsgs + 1) false
    (if u.numMsgs < 10 then 1 else sub32 u.numMsgs 9) u.numMsgs [] { tr with tick := tr.tick + 1 }
    hn hu (by intro h; rw [if_neg (by omega)]; exact sub32_eq _ 9 hu (by omega)) (by omega)
  simp only [hr]
  cases r with
  | error e => exact ⟨_, rfl⟩
  | ok p => exact ⟨_, rfl⟩

theorem FetchAfter_kept (clock : Nat → Int) (long : LongSort) (hl : LongSortSpec long clock)
    (srv : Srv) (u : Mail) (t : Int) (tr : Trace) (ms : List Message) (tr1 : Trace)
    (hn : u.numMsgs ≤ srv.box.length) (hu : u.numMsgs < u32)
    (h : FetchAfter clock long srv u t tr = some (.ok (ms, tr1))) :
    ∃ acc c, ms = (sortMsgs clock long acc c).1
      ∧ ∀ m ∈ acc, Kept clock (timeSince clock (2 * tr.tick) t) tr.tick srv.box m := by
  unfold FetchAfter at h
  simp only at h
  cases hf : fetchLoop clock long srv (timeSince clock (2 * tr.tick) t) (u.numMsgs + 1) false
    (if u.numMsgs < 10 then 1 else sub32 u.numMsgs 9) u.numMsgs [] { tr with tick := tr.tick + 1 } with
  | none => simp [hf] at h
  | some r =>
    cases r with
    | error e => simp [hf] at h
    | ok p =>
      obtain ⟨acc, tra⟩ := p
      simp only [hf, Option.some.injEq, Except.ok.injEq, Prod.mk.injEq] at h
      have := fetchLoop_kept clock long hl srv (timeSince clock (2 * tr.tick) t) tr.tick
        (u.numMsgs + 1) false _ u.numMsgs [] _ acc tra hn hu
        (by intro h; rw [if_neg (by omega)]; exact sub32_eq _ 9 hu (by omega)) (by simp) (by simp) hf
      exact ⟨acc, tra.tick, h.1.symm, this.1⟩

theorem Kept_le (clock : Nat → Int) (hc : SteadyClock clock) (t : Int) (tick0 : Nat)
    (box : List Message) (m : Message)
    (ht : ∀ i, minDuration ≤ clock i - t ∧ clock i - t ≤ maxDuration)
    (hm : PlainDate clock m.Date)
    (h : Kept clock (timeSince clock (2 * tick0) t) tick0 box m) : t ≤ m.Date := by
  obtain ⟨_, i, hi, hk⟩ := h
  simp only [timeSince, not_lt] at hk
  rw [timeSub_plain clock _ hm] at hk
  have e : timeSub (clock (2 * tick0)) t = clock (2 * tick0) - t := by
    have := ht (2 * tick0)
    unfold timeSub
    rw [if_neg (by omega), if_neg (by omega)]
  rw [e] at hk
  have := steady_mono clock hc (2 * tick0) (2 * i) (by omega)
  omega

/-- Under a steady clock, what `FetchAfter` returns is in descending order of date, comes
from the mailbox, and is not older than a watermark within reach of the clock. -/
theorem FetchAfter_sorted (clock : Nat → Int) (hc : SteadyClock clock) (long : LongSort)
    (hl : LongSortSpec long clock) (srv : Srv) (u : Mail)
    (t : Int) (tr : Trace) (ms : List Message) (tr1 : Trace)
    (hn : u.numMsgs ≤ srv.box.length) (hu : u.numMsgs < u32)
    (hbox : ∀ m ∈ srv.box, PlainDate clock m.Date)
    (h : FetchAfter clock long srv u t tr = some (.ok (ms, tr1))) :
    Descending ms ∧ (∀ m ∈ ms, m ∈ srv.box)
      ∧ ((∀ i, minDuration ≤ clock i - t ∧ clock i - t ≤ maxDuration) → ∀ m ∈ ms, t ≤ m.Date) := by
  obtain ⟨acc, c, hms, hk⟩ := FetchAfter_kept clock long hl srv u t tr ms tr1 hn hu h
  subst hms
  have hmem : ∀ m ∈ (sortMsgs clock long acc c).1, m ∈ acc :=
    fun m hm => (sortMsgs_perm clock long hl acc c).mem_iff.mp hm
  refine ⟨sortMsgs_sorted clock hc long hl acc c (fun m hm => hbox m (hk m hm).1),
    fun m hm => (hk m (hmem m hm)).1, ?_⟩
  intro ht m hm
  exact Kept_le clock hc t tr.tick srv.box m ht (hbox m (hk m (hmem m hm)).1) (hk m (hmem m hm))



/-! ## The order of the Date cells of the ledger -/

theorem readAt_updateAt_ne {α : Type} (d : α) (f : α → α) (l : List α) (n k : Nat) (h : n ≠ k) :
    readAt d (updateAt d f l n) k = readAt d l k := by
  induction n generalizing l k with
  | zero =>
    cases l with
    | nil => cases k with
      | zero => exact absurd rfl h
      | succ k => simp [updateAt, readAt]
    | cons x xs => cases k with
      | zero => exact absurd rfl h
      | succ k => simp [updateAt, readAt]
  | succ n ih =>
    cases l with
    | nil => cases k with
      | zero => simp [updateAt, readAt]
      | succ k =>
        simp only [updateAt, readAt]
        rw [ih [] k (by omega)]
        cases k <;> simp [readAt]
    | cons x xs => cases k with
      | zero => simp [updateAt, readAt]
      | succ k =>
        simp only [updateAt, readAt]
        exact ih xs k (by omega)

theorem readAt_updateAt_same {α : Type} (d : α) (f : α → α) (l : List α) (n : Nat) :
    readAt d (updateAt d f l n) n = f (readAt d l n) := by
  induction n generalizing l with
  | zero => cases l <;> simp [updateAt, readAt]
  | succ n ih =>
    cases l with
    | nil =>
      simp only [updateAt, readAt]
      rw [ih []]
      cases n <;> simp [readAt]
    | cons x xs =>
      simp only [updateAt, readAt]
      exact ih xs

/-- The image of a list changed at one index is the image of the list, changed at that
index. -/
theorem map_updateAt {α β : Type} (φ : α → β) (d : α) (g : α → α) (l : List α) (n : Nat) :
    (updateAt d g l n).map φ
      = updateAt (φ d) (fun _ => φ (g (readAt d l n))) (l.map φ) n := by
  induction n generalizing l with
  | zero => cases l <;> simp [updateAt, readAt]
  | succ n ih =>
    cases l with
    | nil =>
      simp only [updateAt, List.map_cons, List.map_nil, readAt]
      have := ih []
      simp only [List.map_nil] at this
      rw [this]
      cases n <;> simp [readAt]
    | cons x xs => simp only [updateAt, List.map_cons, readAt, ih xs]

theorem updateAt_const_id {α : Type} (d : α) (l : List α) (n : Nat) (h : n < l.length) :
    updateAt d (fun _ => readAt d l n) l n = l := by
  induction n generalizing l with
  | zero =>
    cases l with
    | nil => simp at h
    | cons x xs => simp [updateAt, readAt]
  | succ n ih =>
    cases l with
    | nil => simp at h
    | cons x xs =>
      simp only [updateAt, readAt, List.cons.injEq, true_and]
      exact ih xs (by simpa using h)

theorem readAt_map {α β : Type} (φ : α → β) (d : α) (l : List α) (n : Nat) :
    readAt (φ d) (l.map φ) n = φ (readAt d l n) := by
  induction n generalizing l with
  | zero => cases l <;> simp [readAt]
  | succ n ih =>
    cases l with
    | nil => simp [readAt]
    | cons x xs => simpa [readAt] using ih xs

theorem dateCell_nil : dateCell [] = "" := rfl

theorem rowModify_readAt (r : Nat) (f : Cell → Cell) (cells : Row) (h : columnOf r ≠ some 2) :
    readAt Cell.blank (rowModify r f cells) 1 = readAt Cell.blank cells 1 := by
  unfold rowModify
  cases hc : columnOf r with
  | none => rfl
  | some col =>
    simp only
    apply readAt_updateAt_ne
    intro e
    apply h
    rw [hc]
    have : 0 < col := by
      unfold columnOf at hc
      split_ifs at hc <;> simp at hc <;> omega
    congr 1
    omega

theorem columnOf_attachment (k : Nat) (h : k < 26) : columnOf (65 + 7 + k) ≠ some 2 := by
  unfold columnOf
  split_ifs <;> simp <;> omega

/-- A change of a cell outside column `B`, or one that keeps the text of the cell, keeps
the Date cell of the row. -/
theorem dateCell_rowModify (r : Nat) (f : Cell → Cell) (cells : Row)
    (h : columnOf r ≠ some 2 ∨ ∀ c, (f c).value = c.value) :
    dateCell (rowModify r f cells) = dateCell cells := by
  rcases h with h | h
  · unfold dateCell
    rw [rowModify_readAt r f cells h]
  · unfold dateCell rowModify
    cases columnOf r with
    | none => rfl
    | some col =>
      simp only
      by_cases e : col - 1 = 1
      · rw [e, readAt_updateAt_same, h]
      · rw [readAt_updateAt_ne _ _ _ _ _ e]

theorem dateCell_rowModify_date (v : String) (cells : Row) :
    dateCell (rowModify 66 (fun c => { c with value := v }) cells) = v := by
  have hc : columnOf 66 = some 2 := by decide
  unfold dateCell rowModify
  rw [hc]
  simp only
  rw [readAt_updateAt_same]

/-- Such a change of a cell in a row the sheet has keeps the Date cells of all rows. -/
theorem dates_modifyCell (s : Sheet) (r row : Nat) (f : Cell → Cell)
    (hlen : row - 1 < s.length)
    (h : columnOf r ≠ some 2 ∨ ∀ c, (f c).value = c.value) :
    (modifyCell s r row f).map dateCell = s.map dateCell := by
  unfold modifyCell
  cases hc : columnOf r with
  | none => rfl
  | some col =>
    simp only
    split_ifs
    · rfl
    · have e : (fun cells => updateAt Cell.blank f cells (col - 1)) = rowModify r f := by
        funext cells
        simp [rowModify, hc]
      rw [e, map_updateAt, dateCell_rowModify r f _ h, ← readAt_map dateCell [] s (row - 1)]
      exact updateAt_const_id _ _ _ (by simpa using hlen)

theorem length_modifyCell (s : Sheet) (r row : Nat) (f : Cell → Cell)
    (hlen : row - 1 < s.length) : row - 1 < (modifyCell s r row f).length := by
  unfold modifyCell
  cases columnOf r with
  | none => exact hlen
  | some col =>
    simp only
    split_ifs
    · exact hlen
    · exact length_updateAt _ _ _ _

/-- The attachments of a message of at most 26 attachments leave the Date cells as they
are, whether a hyperlink is refused or not. -/
theorem dates_setAttachments (env : Env) (atts : List Attachment) (k dataRow : Nat) (f : Sheet)
    (hlen : dataRow - 1 < f.length) (h : k + atts.length ≤ 26) :
    (setAttachments env atts 7 k dataRow f).map dateCell = f.map dateCell
      ∧ dataRow - 1 < (setAttachments env atts 7 k dataRow f).length := by
  induction atts generalizing k f with
  | nil => exact ⟨rfl, hlen⟩
  | cons att rest ih =>
    simp only [List.length_cons] at h
    simp only [setAttachments, SetCellValue]
    have h1 : (SetCellHyperLink f (65 + 7 + k) dataRow att.Url).map dateCell = f.map dateCell
        ∧ dataRow - 1 < (SetCellHyperLink f (65 + 7 + k) dataRow att.Url).length := by
      unfold SetCellHyperLink
      split_ifs
      · exact ⟨rfl, hlen⟩
      · exact ⟨dates_modifyCell f _ dataRow _ hlen (Or.inr (fun _ => rfl)),
          length_modifyCell f _ dataRow _ hlen⟩
    have h2 := dates_modifyCell (SetCellHyperLink f (65 + 7 + k) dataRow att.Url) (65 + 7 + k)
      dataRow (fun c => { c with value := cellText env att.Name }) h1.2
      (Or.inl (columnOf_attachment k (by omega)))
    have h3 := length_modifyCell (SetCellHyperLink f (65 + 7 + k) dataRow att.Url) (65 + 7 + k)
      dataRow (fun c => { c with value := cellText env att.Name }) h1.2
    obtain ⟨i1, i2⟩ := ih (k + 1) _ h3 (by omega)
    exact ⟨by rw [i1, h2, h1.1], i2⟩

/-- The writes of `setRows` for a message of at most 26 attachments put the date of the
message into the Date cell of its row and keep the Date cells of the other rows, whether
a hyperlink is refused or not. -/
theorem dates_setFields (env : Env) (msg : Message) (dataRow : Nat) (f : Sheet)
    (hrow : 0 < dataRow) (htot : dataRow ≤ TotalRows) (hatt : msg.Attachment.length ≤ 26) :
    (setFields env msg dataRow headers 0 f).map dateCell
      = updateAt "" (fun _ => dateText env msg) (f.map dateCell) (dataRow - 1) := by
  simp only [headers, setFields, setField, SetCellValue]
  simp only [String.reduceEq, if_true, if_false, ↓reduceIte, Nat.reduceAdd]
  rw [modifyCell_eq f _ dataRow _ hrow htot (Or.inl (by decide))]
  rw [modifyCell_updateAt _ _ _ _ _ hrow htot]
  have hl : dataRow - 1 < (updateAt [] (fun x => rowModify 66
      (fun c => { c with value := cellText env (env.formatDate msg.Date) })
      (rowModify 65 (fun c => { c with value := cellText env msg.Id }) x)) f (dataRow - 1)).length :=
    length_updateAt _ _ _ _
  have hv : (updateAt [] (fun x => rowModify 66
      (fun c => { c with value := cellText env (env.formatDate msg.Date) })
      (rowModify 65 (fun c => { c with value := cellText env msg.Id }) x)) f (dataRow - 1)).map
        dateCell = updateAt "" (fun _ => dateText env msg) (f.map dateCell) (dataRow - 1) := by
    rw [map_updateAt]
    congr 1
    funext _
    rw [dateCell_rowModify_date]
    rfl
  generalize updateAt [] (fun x => rowModify 66
      (fun c => { c with value := cellText env (env.formatDate msg.Date) })
      (rowModify 65 (fun c => { c with value := cellText env msg.Id }) x)) f (dataRow - 1) = s2
    at hl hv ⊢
  have step : ∀ (s : Sheet) (r : Nat) (v : String), columnOf r ≠ some 2 →
      dataRow - 1 < s.length →
      (modifyCell s r dataRow (fun c => { c with value := v })).map dateCell = s.map dateCell
        ∧ dataRow - 1 < (modifyCell s r dataRow (fun c => { c with value := v })).length :=
    fun s r v hr hs => ⟨dates_modifyCell s r dataRow _ hs (Or.inl hr),
      length_modifyCell s r dataRow _ hs⟩
  obtain ⟨a3, b3⟩ := step s2 67 (cellText env (ToString msg.From)) (by decide) hl
  obtain ⟨a4, b4⟩ := step _ 68 (cellText env msg.Subject) (by decide) b3
  obtain ⟨a5, b5⟩ := step _ 69 (cellText env (ToString msg.Cc)) (by decide) b4
  obtain ⟨a6, b6⟩ := step _ 70 (cellText env (ToString msg.Bcc)) (by decide) b5
  obtain ⟨a7, b7⟩ := step _ 71 (cellText env (ToString msg.ReplyTo)) (by decide) b6
  rw [(dates_setAttachments env msg.Attachment 0 dataRow _ b7 (by omega)).1,
    a7, a6, a5, a4, a3, hv]

theorem map_eq_cons {α β : Type} (φ : α → β) (l : List α) (b : β) (bs : List β)
    (h : l.map φ = b :: bs) : ∃ x xs, l = x :: xs ∧ φ x = b ∧ xs.map φ = bs := by
  cases l with
  | nil => simp at h
  | cons x xs =>
    simp only [List.map_cons, List.cons.injEq] at h
    exact ⟨x, xs, rfl, h.1, h.2⟩

/-- The Date cells after `setRows` filled the blank rows below the rows `pre`. -/
theorem dates_setRowsFrom_blank (env : Env) (msgs : List Message) (i : Nat) (f : Sheet)
    (pre post : List String) (hf : f.map dateCell = pre ++ List.replicate msgs.length "" ++ post)
    (hpre : pre.length = i + 1) (htot : i + 1 + msgs.length ≤ TotalRows)
    (hatt : ∀ m ∈ msgs, m.Attachment.length ≤ 26) :
    (setRowsFrom env msgs i f).map dateCell = pre ++ msgs.map (dateText env) ++ post := by
  induction msgs generalizing i f pre with
  | nil => simpa [setRowsFrom] using hf
  | cons m rest ih =>
    simp only [List.length_cons] at htot hf
    simp only [setRowsFrom, List.map_cons]
    have key := dates_setFields env m (i + 2) f (by omega) (by omega)
      (hatt m (List.mem_cons_self _ _))
    have e : i + 2 - 1 = pre.length := by omega
    rw [hf, e, List.replicate_succ, List.append_assoc, List.cons_append, updateAt_append] at key
    rw [ih (i + 1) _ (pre ++ [dateText env m]) (by rw [key]; simp) (by simp [hpre]) (by omega)
      (fun x hx => hatt x (List.mem_cons_of_mem _ hx))]
    simp

/-- The Date cells after `setRows` wrote below the last row of a sheet. -/
theorem dates_setRowsFrom_end (env : Env) (msgs : List Message) (i : Nat) (f : Sheet)
    (pre : List String) (hf : f.map dateCell = pre)
    (hpre : pre.length = i + 1) (htot : i + 1 + msgs.length ≤ TotalRows)
    (hatt : ∀ m ∈ msgs, m.Attachment.length ≤ 26) :
    (setRowsFrom env msgs i f).map dateCell = pre ++ msgs.map (dateText env) := by
  induction msgs generalizing i f pre with
  | nil => simpa [setRowsFrom] using hf
  | cons m rest ih =>
    simp only [List.length_cons] at htot
    simp only [setRowsFrom, List.map_cons]
    have key := dates_setFields env m (i + 2) f (by omega) (by omega)
      (hatt m (List.mem_cons_self _ _))
    have e : i + 2 - 1 = pre.length := by omega
    rw [hf, e, updateAt_length] at key
    rw [ih (i + 1) _ (pre ++ [dateText env m]) key (by simp [hpre]) (by omega)
      (fun x hx => hatt x (List.mem_cons_of_mem _ hx))]
    simp

/-- When `PrependRows` succeeds on a ledger, the result is a title row followed by rows
whose Date cells are the dates of the new messages, in order, and then the Date cells of
the old rows. -/
theorem PrependRows_dates (env : Env) (h : Row) (rs : List Row) (msgs : List Message) (b : Blob)
    (hne : msgs ≠ []) (hatt : ∀ m ∈ msgs, m.Attachment.length ≤ 26)
    (hok : PrependRows env (.xlsx (h :: rs)) msgs = .ok b) :
    ∃ h1 rows, b = .xlsx (h1 :: rows)
      ∧ rows.map dateCell = msgs.map (dateText env) ++ rs.map dateCell := by
  have hlen : 0 < msgs.length := List.length_pos.mpr hne
  unfold PrependRows OpenReader InsertRows at hok
  simp only [show ¬ (2 < 1) by omega, if_false, show ¬ (msgs.length < 1) by omega] at hok
  by_cases hT : TotalRows ≤ 2 ∨ TotalRows ≤ msgs.length
  · simp [hT] at hok
  · have hT2 : msgs.length < TotalRows := by omega
    simp only [hT, if_false] at hok
    have fin : ∀ s1 : Sheet, save env s1 = .ok b →
        s1.map dateCell = [dateCell h] ++ msgs.map (dateText env) ++ rs.map dateCell →
        ∃ h1 rows, b = .xlsx (h1 :: rows)
          ∧ rows.map dateCell = msgs.map (dateText env) ++ rs.map dateCell := by
      intro s1 hs hd
      unfold save at hs
      cases he : env.encodeError s1 with
      | some e => simp [he] at hs
      | none =>
        simp only [he, Except.ok.injEq] at hs
        obtain ⟨x, xs, e1, _, e3⟩ := map_eq_cons dateCell s1 (dateCell h) _
          (by simpa using hd)
        exact ⟨x, xs, by rw [← hs, e1], e3⟩
    cases rs with
    | nil =>
      simp only [List.length_singleton, show (1 < 2) by omega, if_true, setRows] at hok
      refine fin _ hok ?_
      rw [dates_setRowsFrom_end env msgs 0 [h] [dateCell h] rfl rfl (by omega) hatt]
      simp
    | cons r rs1 =>
      simp only [List.length_cons, show ¬ (rs1.length + 1 + 1 < 2) by omega, if_false] at hok
      by_cases hT3 : TotalRows < rs1.length + 1 + 1 + msgs.length
      · simp [hT3] at hok
      · simp only [hT3, if_false, setRows] at hok
        refine fin _ hok ?_
        rw [dates_setRowsFrom_blank env msgs 0 _ [dateCell h] ((r :: rs1).map dateCell)
          (by simp [dateCell_nil]) rfl (by omega) hatt]



/-! ## The ledger in the bucket -/

theorem storeGet_storePut_same (st : List (String × Blob)) (k : String) (b : Blob) :
    storeGet (storePut st k b) k = some b := by
  induction st with
  | nil => simp [storePut, storeGet]
  | cons p rest ih =>
    obtain ⟨k0, b0⟩ := p
    unfold storePut
    by_cases h : k0 = k
    · simp [h, storeGet]
    · simp [h, storeGet, ih]

theorem storeGet_storePut_ne (st : List (String × Blob)) (k k1 : String) (b : Blob) (h : k1 ≠ k) :
    storeGet (storePut st k b) k1 = storeGet st k1 := by
  induction st with
  | nil => simp [storePut, storeGet, Ne.symm h]
  | cons p rest ih =>
    obtain ⟨k0, b0⟩ := p
    unfold storePut
    by_cases h0 : k0 = k
    · subst h0
      simp [storeGet, Ne.symm h]
    · simp only [h0, if_false, storeGet, ih]

theorem UploadFile_store_ne (env : Env) (key k1 : String) (body : Blob) (w : World) (h : k1 ≠ key) :
    storeGet (UploadFile env key body w).2.store k1 = storeGet w.store k1 := by
  unfold UploadFile
  cases env.putError w.puts.length key with
  | some e => rfl
  | none => exact storeGet_storePut_ne _ _ _ _ h

/-- No attachment is stored under the key of the ledger. -/
theorem ledgerKey_ne (user id name : String) :
    user ++ "/" ++ DefaultExcel ≠ user ++ "/" ++ id ++ "/" ++ name := by
  intro h
  have h1 := congrArg String.data h
  simp only [String.data_append, List.append_assoc] at h1
  have h2 := List.append_cancel_left h1
  have h3 := List.append_cancel_left h2
  have : ('/' : Char) ∈ DefaultExcel.data := by
    rw [h3]; simp
  revert this
  decide

theorem uploadMessage_store (env : Env) (u : Mail) (id : String) (atts : List Attachment)
    (w : World) :
    storeGet (uploadMessage env u id atts w).2.store (u.User ++ "/" ++ DefaultExcel)
      = storeGet w.store (u.User ++ "/" ++ DefaultExcel) := by
  induction atts generalizing w with
  | nil => rfl
  | cons a rest ih =>
    simp only [uploadMessage]
    rw [ih, UploadFile_store_ne _ _ _ _ _ (ledgerKey_ne _ _ _)]

theorem uploadAttachments_store (env : Env) (u : Mail) (msgs : List Message) (w : World) :
    storeGet (uploadAttachments env u msgs w).2.store (u.User ++ "/" ++ DefaultExcel)
      = storeGet w.store (u.User ++ "/" ++ DefaultExcel) := by
  induction msgs generalizing w with
  | nil => rfl
  | cons m rest ih =>
    simp only [uploadAttachments]
    rw [ih, uploadMessage_store]

theorem uploadMessage_length (env : Env) (u : Mail) (id : String) (atts : List Attachment)
    (w : World) : (uploadMessage env u id atts w).1.length = atts.length := by
  induction atts generalizing w with
  | nil => rfl
  | cons a rest ih => simp only [uploadMessage, List.length_cons, ih]

theorem uploadAttachments_dates (env : Env) (u : Mail) (msgs : List Message) (w : World) :
    List.Forall₂ (fun m m1 => m1.Date = m.Date ∧ m1.Attachment.length = m.Attachment.length)
      msgs (uploadAttachments env u msgs w).1 := by
  induction msgs generalizing w with
  | nil => exact List.Forall₂.nil
  | cons m rest ih =>
    simp only [uploadAttachments]
    exact List.Forall₂.cons ⟨rfl, uploadMessage_length _ _ _ _ _⟩ (ih _)

theorem setHeaders_nil (env : Env) : setHeaders env [] = [headerRow] := by
  have h : ∀ v : String, v.utf8ByteSize ≤ TotalCellChars → cellText env v = v :=
    fun v hv => if_pos hv
  simp only [setHeaders, headers, setHeadersFrom, SetCellValue]
  rw [h "Id" (by decide), h "Date" (by decide), h "From" (by decide), h "Subject" (by decide),
    h "Cc" (by decide), h "Bcc" (by decide), h "ReplyTo" (by decide),
    h "Attachments" (by decide)]
  rfl

/-- When `New` succeeds, the result is a title row followed by rows whose Date cells are
the dates of the messages, in order. -/
theorem New_dates (env : Env) (msgs : List Message) (b : Blob)
    (hlen : msgs.length + 1 ≤ TotalRows) (hatt : ∀ m ∈ msgs, m.Attachment.length ≤ 26)
    (hok : New env msgs = .ok b) :
    ∃ h1 rows, b = .xlsx (h1 :: rows) ∧ rows.map dateCell = msgs.map (dateText env) := by
  unfold New setRows save at hok
  cases he : env.encodeError (setRowsFrom env msgs 0 (setHeaders env [])) with
  | some e => simp [he] at hok
  | none =>
    simp only [he, Except.ok.injEq] at hok
    have hd := dates_setRowsFrom_end env msgs 0 (setHeaders env []) [dateCell headerRow]
      (by rw [setHeaders_nil]; rfl) rfl (by omega) hatt
    obtain ⟨x, xs, e1, _, e3⟩ := map_eq_cons dateCell _ (dateCell headerRow) _
      (by simpa using hd)
    exact ⟨x, xs, by rw [← hok, e1], e3⟩

theorem Ledger_desc (env : Env) (clocks : List (Nat → Int)) (s : Sheet)
    (h : Ledger env clocks s) : DescDates env s := by
  obtain ⟨hd, rows, ms, hs, hrows, hdesc, hgood⟩ := h
  subst hs
  unfold DescDates dateCells
  simp only [List.drop_succ_cons, List.drop_zero]
  rw [hrows, List.pairwise_map]
  refine List.Pairwise.imp_of_mem ?_ hdesc
  intro a b ha hb hab
  exact ⟨a.Date, b.Date, (hgood a ha).1, (hgood b hb).1, hab⟩

theorem forall2_mem {P : Message → Message → Prop} {l1 l2 : List Message}
    (h : List.Forall₂ P l1 l2) : ∀ b ∈ l2, ∃ a ∈ l1, P a b := by
  induction h with
  | nil => simp
  | cons hab _ ih =>
    intro b hb
    rcases List.mem_cons.mp hb with e | hb'
    · subst e
      exact ⟨_, List.mem_cons_self _ _, hab⟩
    · obtain ⟨a, ha, hp⟩ := ih b hb'
      exact ⟨a, List.mem_cons_of_mem _ ha, hp⟩

theorem forall2_desc {l1 l2 : List Message}
    (h : List.Forall₂ (fun m m1 => m1.Date = m.Date ∧ m1.Attachment.length = m.Attachment.length) l1 l2)
    (hd : Descending l1) : Descending l2 := by
  induction h with
  | nil => exact List.Pairwise.nil
  | cons hab hrest ih =>
    unfold Descending at hd ⊢
    rw [List.pairwise_cons] at hd ⊢
    refine ⟨?_, ih hd.2⟩
    intro b hb
    obtain ⟨a, ha, hp⟩ := forall2_mem hrest b hb
    rw [hp.1, hab.1]
    exact hd.1 a ha

theorem UploadFile_store (env : Env) (key : String) (body : Blob) (w : World) :
    storeGet (UploadFile env key body w).2.store key = storeGet w.store key
      ∨ storeGet (UploadFile env key body w).2.store key = some body := by
  unfold UploadFile
  cases env.putError w.puts.length key with
  | some e => exact Or.inl rfl
  | none => exact Or.inr (storeGet_storePut_same _ _ _)

theorem UploadFile_ok (env : Env) (key url : String) (body : Blob) (w : World)
    (h : (UploadFile env key body w).1 = .ok url) :
    storeGet (UploadFile env key body w).2.store key = some body := by
  unfold UploadFile at h ⊢
  cases hp : env.putError w.puts.length key with
  | some e => simp [hp] at h
  | none => exact storeGet_storePut_same _ _ _

theorem Fetch_sorted (clock : Nat → Int) (hc : SteadyClock clock) (long : LongSort)
    (hl : LongSortSpec long clock) (srv : Srv) (from_ to_ : Nat)
    (tr : Trace) (batch : List Message) (tr1 : Trace)
    (h1 : 1 ≤ from_) (h2 : from_ ≤ to_ + 1) (h3 : to_ ≤ srv.box.length) (h4 : to_ < u32)
    (hbox : ∀ m ∈ srv.box, PlainDate clock m.Date)
    (h : Fetch clock long srv from_ to_ tr = .ok (batch, tr1)) :
    Descending batch ∧ (∀ m ∈ batch, m ∈ srv.box) ∧ batch.length = to_ + 1 - from_ := by
  have hp := (Fetch_mem clock long hl srv from_ to_ tr batch tr1 h1 h2 h3 h4 h).1
  have hmem : ∀ m ∈ batch, m ∈ srv.box := fun m hm =>
    delivered_mem _ _ _ _ (hp.mem_iff.mp hm)
  refine ⟨?_, hmem, by rw [hp.length_eq, delivered_length _ _ _ h1 h2 h3]⟩
  unfold Fetch at h
  cases hf : srv.fetchError from_ to_ with
  | some e => simp [hf] at h
  | none =>
    simp only [hf, Except.ok.injEq, Prod.mk.injEq] at h
    rw [← h.1] at hmem ⊢
    apply sortMsgs_sorted clock hc long hl
    intro m hm
    exact hbox m (hmem m ((sortMsgs_perm _ _ hl _ _).mem_iff.mpr hm))

theorem createRange_bounds (n : Nat) (hu : n < u32) :
    1 ≤ (createRange n).1 ∧ (createRange n).1 ≤ (createRange n).2 + 1 ∧ (createRange n).2 = n
      ∧ (createRange n).2 ≤ (createRange n).1 + 25 := by
  by_cases h : n ≤ 25
  · simp [createRange, h]
    omega
  · simp only [createRange, h, if_false]
    rw [sub32_eq n 25 hu (by omega)]
    refine ⟨by omega, by omega, trivial, by omega⟩

theorem good_upload (env : Env) (clocks : List (Nat → Int)) (u : Mail) (msgs : List Message)
    (w : World) (h : ∀ m ∈ msgs, GoodMsg env clocks m) :
    ∀ m ∈ (uploadAttachments env u msgs w).1, GoodMsg env clocks m := by
  intro m1 hm1
  obtain ⟨m, hm, hp⟩ := forall2_mem (uploadAttachments_dates env u msgs w) m1 hm1
  have := h m hm
  unfold GoodMsg dateText at this ⊢
  rw [hp.1, hp.2]
  exact this

theorem dateText_upload (env : Env) (u : Mail) (msgs : List Message) (w : World) :
    (uploadAttachments env u msgs w).1.map (dateText env) = msgs.map (dateText env) := by
  have h := uploadAttachments_dates env u msgs w
  generalize (uploadAttachments env u msgs w).1 = ups at h
  induction h with
  | nil => rfl
  | cons hab _ ih =>
    simp only [List.map_cons, ih, List.cons.injEq, and_true]
    unfold dateText
    rw [hab.1]

/-- The ledger `createUserExcel` stores satisfies `Ledger`. -/
theorem create_ledger (env : Env) (clock : Nat → Int) (long : LongSort)
    (clocks : List (Nat → Int)) (srv : Srv)
    (u : Mail) (w : World) (url : String) (w1 : World)
    (hc : SteadyClock clock) (hl : LongSortSpec long clock) (hcl : clock ∈ clocks)
    (hn : u.numMsgs ≤ srv.box.length) (hu : u.numMsgs < u32)
    (hbox : ∀ m ∈ srv.box, GoodMsg env clocks m)
    (h : createUserExcel env clock long srv u w = .ok (.ok url, w1)) :
    ∃ s, storeGet w1.store (u.User ++ "/" ++ DefaultExcel) = some (.xlsx s) ∧ Ledger env clocks s := by
  unfold createUserExcel at h
  obtain ⟨r1, r2, r3, r4⟩ := createRange_bounds u.numMsgs hu
  simp only [NumMsgs] at h
  cases hF : Fetch clock long srv (createRange u.numMsgs).1 (createRange u.numMsgs).2 w.trace with
  | error e => simp [hF] at h
  | ok p =>
    obtain ⟨msgs, tr⟩ := p
    simp only [hF] at h
    obtain ⟨hdesc, hmem, hlen⟩ := Fetch_sorted clock hc long hl srv _ _ _ msgs tr r1 r2 (by omega)
      (by omega) (fun m hm => (hbox m hm).2.1 clock hcl) hF
    have hup := uploadAttachments_dates env u msgs { w with trace := tr }
    have hgood := good_upload env clocks u msgs { w with trace := tr }
      (fun m hm => hbox m (hmem m hm))
    cases hN : New env (uploadAttachments env u msgs { w with trace := tr }).1 with
    | error e => simp [hN] at h
    | ok ebuf =>
      simp only [hN] at h
      obtain ⟨h1, rows, hb, hrows⟩ := New_dates env _ ebuf
        (by rw [← hup.length_eq, hlen]; unfold TotalRows; omega)
        (fun m hm => (hgood m hm).2.2) hN
      generalize hU : UploadFile env (u.User ++ "/" ++ DefaultExcel) ebuf
        (uploadAttachments env u msgs { w with trace := tr }).2 = res at h
      obtain ⟨res1, res2⟩ := res
      cases res1 with
      | error e => simp at h
      | ok url1 =>
        simp only [Except.ok.injEq, Prod.mk.injEq] at h
        have hs := UploadFile_ok env _ url1 _ _ (by rw [hU])
        rw [hU] at hs
        rw [← h.2]
        refine ⟨h1 :: rows, by rw [hs, hb], h1, rows, _, rfl, hrows, ?_, hgood⟩
        exact forall2_desc hup hdesc

theorem recent_date (env : Env) (clocks : List (Nat → Int)) (hd : Row) (rows : List Row)
    (m0 : Message) (rest : List Message) (h : GoodMsg env clocks m0)
    (hrows : rows.map dateCell = (m0 :: rest).map (dateText env)) :
    GetRecentMsgDate env (.xlsx (hd :: rows)) = m0.Date := by
  obtain ⟨r0, rs, e1, e2, _⟩ := map_eq_cons dateCell rows _ _ hrows
  subst e1
  unfold GetRecentMsgDate OpenReader GetCellValue
  simp only [readAt]
  unfold dateCell at e2
  rw [e2, h.1]

/-- `updateUserExcel` keeps `Ledger` for the stored ledger, whatever it returns. -/
theorem update_ledger (env : Env) (clock : Nat → Int) (long : LongSort)
    (clocks : List (Nat → Int)) (srv : Srv)
    (u : Mail) (s : Sheet) (w : World) (res : Except String String) (w1 : World)
    (hc : SteadyClock clock) (hl : LongSortSpec long clock) (hcl : clock ∈ clocks)
    (hn : u.numMsgs ≤ srv.box.length) (hu : u.numMsgs < u32)
    (hbox : ∀ m ∈ srv.box, GoodMsg env clocks m)
    (hL : Ledger env clocks s)
    (hst : storeGet w.store (u.User ++ "/" ++ DefaultExcel) = some (.xlsx s))
    (h : updateUserExcel env clock long srv u (.xlsx s) w = some (.ok (res, w1))) :
    ∃ s1, storeGet w1.store (u.User ++ "/" ++ DefaultExcel) = some (.xlsx s1)
      ∧ Ledger env clocks s1 := by
  unfold updateUserExcel at h
  simp only at h
  cases hF : FetchAfter clock long srv u (GetRecentMsgDate env (.xlsx s)) w.trace with
  | none => simp [hF] at h
  | some r =>
    cases r with
    | error e => simp [hF] at h
    | ok p =>
      obtain ⟨msgs, tr⟩ := p
      simp only [hF] at h
      obtain ⟨hdesc, hmem, hle⟩ := FetchAfter_sorted clock hc long hl srv u _ w.trace msgs tr hn hu
        (fun m hm => (hbox m hm).2.1 clock hcl) hF
      by_cases hz : msgs.length = 0
      · simp only [hz, if_true, Option.some.injEq, Except.ok.injEq, Prod.mk.injEq] at h
        rw [← h.2]
        exact ⟨s, hst, hL⟩
      · simp only [hz, if_false] at h
        obtain ⟨hd, rows, ms, hs, hrows, hms, hgood⟩ := hL
        have hup := uploadAttachments_dates env u msgs { w with trace := tr }
        have hupgood := good_upload env clocks u msgs { w with trace := tr }
          (fun m hm => hbox m (hmem m hm))
        have hne : (uploadAttachments env u msgs { w with trace := tr }).1 ≠ [] := by
          intro e
          have := hup.length_eq
          rw [e] at this
          exact hz (by simpa using this)
        have hkeep := uploadAttachments_store env u msgs { w with trace := tr }
        simp only at hkeep
        rw [hst] at hkeep
        subst hs
        have hold : ∃ s1, storeGet (uploadAttachments env u msgs { w with trace := tr }).2.store
            (u.User ++ "/" ++ DefaultExcel) = some (.xlsx s1) ∧ Ledger env clocks s1 :=
          ⟨_, hkeep, hd, rows, ms, rfl, hrows, hms, hgood⟩
        cases hP : PrependRows env (.xlsx (hd :: rows))
            (uploadAttachments env u msgs { w with trace := tr }).1 with
        | error e =>
          simp only [hP, Option.some.injEq, Except.ok.injEq, Prod.mk.injEq] at h
          rw [← h.2]
          exact hold
        | ok bufp =>
          simp only [hP] at h
          obtain ⟨h1, rows1, hb, hrows1⟩ := PrependRows_dates env hd rows _ bufp hne
            (fun m hm => (hupgood m hm).2.2) hP
          have hnew : Ledger env clocks (h1 :: rows1) := by
            refine ⟨h1, rows1, (uploadAttachments env u msgs { w with trace := tr }).1 ++ ms,
              rfl, by rw [hrows1, hrows, List.map_append], ?_, ?_⟩
            · unfold Descending
              rw [List.pairwise_append]
              refine ⟨forall2_desc hup hdesc, hms, ?_⟩
              intro a ha b hb
              obtain ⟨m, hm, hp⟩ := forall2_mem hup a ha
              rw [hp.1]
              cases ms with
              | nil => simp at hb
              | cons m0 rest =>
                have hT := recent_date env clocks hd rows m0 rest
                  (hgood m0 (List.mem_cons_self _ _)) hrows
                have h0 := hle (by
                  rw [hT]
                  exact ((hgood m0 (List.mem_cons_self _ _)).2.1 clock hcl).2) m hm
                rw [hT] at h0
                rcases List.mem_cons.mp hb with e | hb1
                · rw [e]; exact h0
                · exact ((List.pairwise_cons.mp hms).1 b hb1).trans h0
            · intro m hm
              rcases List.mem_append.mp hm with h1 | h1
              · exact hupgood m h1
              · exact hgood m h1
          have hor := UploadFile_store env (u.User ++ "/" ++ DefaultExcel) bufp
            (uploadAttachments env u msgs { w with trace := tr }).2
          generalize hU : UploadFile env (u.User ++ "/" ++ DefaultExcel) bufp
            (uploadAttachments env u msgs { w with trace := tr }).2 = r at h hor
          obtain ⟨r1, r2⟩ := r
          have hw : w1 = r2 := by
            cases r1 <;> simp at h <;> exact h.2.symm
          subst hw
          rcases hor with e | e
          · rw [hkeep] at e
            exact ⟨_, e, hd, rows, ms, rfl, hrows, hms, hgood⟩
          · exact ⟨_, by rw [e, hb], hnew⟩

theorem Login_ok (srv : Srv) (u u1 : Mail) (h : Login srv u = .ok u1) :
    u1.User = u.User ∧ u1.numMsgs = srv.box.length % u32 := by
  unfold Login at h
  cases h1 : srv.dialError with
  | some e => simp [h1] at h
  | none =>
    cases h2 : srv.loginError with
    | some e => simp [h1, h2] at h
    | none =>
      cases h3 : srv.selectError with
      | some e => simp [h1, h2, h3] at h
      | none =>
        simp only [h1, h2, h3, Except.ok.injEq] at h
        rw [← h]
        exact ⟨rfl, rfl⟩

theorem mod_u32_bounds (n : Nat) : n % u32 ≤ n ∧ n % u32 < u32 :=
  ⟨Nat.mod_le _ _, Nat.mod_lt _ (by decide)⟩

theorem extend_ledger (env : Env) (long : LongSort) (clocks : List (Nat → Int)) (u : Mail)
    (w : World) (rq : Request) (hc : SteadyClock rq.clock) (hl : LongSortSpec long rq.clock)
    (hcl : rq.clock ∈ clocks)
    (hbox : ∀ m ∈ rq.srv.box, GoodMsg env clocks m)
    (hI : ∃ s, storeGet w.store (u.User ++ "/" ++ DefaultExcel) = some (.xlsx s)
      ∧ Ledger env clocks s) :
    ∃ s, storeGet (extend env long u w rq).store (u.User ++ "/" ++ DefaultExcel)
        = some (.xlsx s) ∧ Ledger env clocks s := by
  obtain ⟨s, hst, hL⟩ := hI
  unfold extend
  cases hlog : Login rq.srv u with
  | error e => exact ⟨s, hst, hL⟩
  | ok u1 =>
    obtain ⟨hu1, hn1⟩ := Login_ok rq.srv u u1 hlog
    simp only [hst]
    cases hU : updateUserExcel env rq.clock long rq.srv u1 (Blob.xlsx s) w with
    | none => exact ⟨s, hst, hL⟩
    | some r =>
      cases r with
      | error e => exact ⟨s, hst, hL⟩
      | ok p =>
        obtain ⟨res, w1⟩ := p
        simp only
        have := update_ledger env rq.clock long clocks rq.srv u1 s w res w1 hc hl hcl
          (by rw [hn1]; exact (mod_u32_bounds _).1) (by rw [hn1]; exact (mod_u32_bounds _).2)
          hbox hL (by rw [hu1]; exact hst) hU
        rw [hu1] at this
        exact this

theorem extend_all_ledger (env : Env) (long : LongSort) (clocks : List (Nat → Int)) (u : Mail)
    (rqs : List Request) (w : World)
    (hrq : ∀ rq ∈ rqs, SteadyClock rq.clock ∧ LongSortSpec long rq.clock ∧ rq.clock ∈ clocks
      ∧ ∀ m ∈ rq.srv.box, GoodMsg env clocks m)
    (hI : ∃ s, storeGet w.store (u.User ++ "/" ++ DefaultExcel) = some (.xlsx s)
      ∧ Ledger env clocks s) :
    ∃ s, storeGet (rqs.foldl (extend env long u) w).store (u.User ++ "/" ++ DefaultExcel)
      = some (.xlsx s) ∧ Ledger env clocks s := by
  induction rqs generalizing w with
  | nil => exact hI
  | cons rq rest ih =>
    simp only [List.foldl_cons]
    obtain ⟨h1, h2, h3, h4⟩ := hrq rq (List.mem_cons_self _ _)
    exact ih _ (fun r hr => hrq r (List.mem_cons_of_mem _ hr))
      (extend_ledger env long clocks u w rq h1 h2 h3 h4 hI)

/-- C4 as amended: a ledger built by `createUserExcel` and then extended by any sequence
of synchronisations of its single writer has Date cells that all parse and never increase
from row 2 downward (equal dates may follow each other), so the newest message is in row
2. This holds when every wall clock never goes back and gives the two readings of one
comparison of `sortMsgs` less than a second apart, whatever the time between one step
and the next; when the sort of a slice of more than twelve elements, which is left to
package `sort`, returns a permutation that is in descending order of date whenever the
answers of the comparator agree with the dates; and when every message of the mailboxes
has a date that survives formatting, storing and parsing, is a whole number of seconds,
lies within the range of a `Duration` of every clock reading, and has at most 26
attachments. -/
theorem ledger_dates_descending (env : Env) (long : LongSort) (u : Mail) (w0 : World)
    (rq0 : Request) (rqs : List Request) (u1 : Mail) (url : String) (w1 : World)
    (hclock : ∀ rq ∈ rq0 :: rqs, SteadyClock rq.clock)
    (hsort : ∀ rq ∈ rq0 :: rqs, LongSortSpec long rq.clock)
    (hbox : ∀ rq ∈ rq0 :: rqs, ∀ m ∈ rq.srv.box,
      GoodMsg env ((rq0 :: rqs).map (fun r => r.clock)) m)
    (hlogin : Login rq0.srv u = .ok u1)
    (hcreate : createUserExcel env rq0.clock long rq0.srv u1 w0 = .ok (.ok url, w1)) :
    ∃ s, storeGet (rqs.foldl (extend env long u) w1).store (u.User ++ "/" ++ DefaultExcel)
        = some (.xlsx s) ∧ DescDates env s := by
  obtain ⟨hu1, hn1⟩ := Login_ok rq0.srv u u1 hlogin
  have h0 := create_ledger env rq0.clock long ((rq0 :: rqs).map (fun r => r.clock)) rq0.srv u1
    w0 url w1 (hclock rq0 (List.mem_cons_self _ _)) (hsort rq0 (List.mem_cons_self _ _))
    (List.mem_map.mpr ⟨rq0, List.mem_cons_self _ _, rfl⟩)
    (by rw [hn1]; exact (mod_u32_bounds _).1) (by rw [hn1]; exact (mod_u32_bounds _).2)
    (hbox rq0 (List.mem_cons_self _ _)) hcreate
  rw [hu1] at h0
  obtain ⟨s, hs, hL⟩ := extend_all_ledger env long ((rq0 :: rqs).map (fun r => r.clock)) u rqs w1
    (fun rq hrq => ⟨hclock rq (List.mem_cons_of_mem _ hrq), hsort rq (List.mem_cons_of_mem _ hrq),
      List.mem_map.mpr ⟨rq, List.mem_cons_of_mem _ hrq, rfl⟩,
      hbox rq (List.mem_cons_of_mem _ hrq)⟩) h0
  exact ⟨s, hs, Ledger_desc env _ s hL⟩



/-! ## The outcomes of a request -/

theorem append_ne_empty (a b : String) (h : a ≠ "") : a ++ b ≠ "" := by
  intro e
  apply h
  have h1 := congrArg String.data e
  simp only [String.data_append] at h1
  have h2 : a.data = [] := (List.append_eq_nil.mp h1).1
  exact String.ext h2

theorem Login_error_nonempty (srv : Srv) (u : Mail) (e : String) (h : Login srv u = .error e) :
    e ≠ "" := by
  unfold Login at h
  cases h1 : srv.dialError with
  | some e1 =>
    simp only [h1, Except.error.injEq] at h
    rw [← h]
    exact append_ne_empty _ _ (append_ne_empty _ _ (append_ne_empty _ _ (by decide)))
  | none =>
    cases h2 : srv.loginError with
    | some e1 =>
      simp only [h1, h2, Except.error.injEq] at h
      rw [← h]
      exact append_ne_empty _ _ (append_ne_empty _ _ (append_ne_empty _ _ (by decide)))
    | none =>
      cases h3 : srv.selectError with
      | some e1 =>
        simp only [h1, h2, h3, Except.error.injEq] at h
        rw [← h]
        exact append_ne_empty _ _ (by decide)
      | none => simp [h1, h2, h3] at h

theorem Fetch_error (clock : Nat → Int) (long : LongSort) (srv : Srv) (from_ to_ : Nat)
    (tr : Trace) (line : String)
    (h : Fetch clock long srv from_ to_ tr = .error line) :
    srv.fetchError from_ to_ = some line := by
  unfold Fetch at h
  cases hf : srv.fetchError from_ to_ with
  | some e => simpa [hf] using h
  | none => simp [hf] at h

theorem fetchLoop_error (clock : Nat → Int) (long : LongSort) (srv : Srv) (since : Int)
    (fuel : Nat) :
    ∀ (found : Bool) (from_ to_ : Nat) (msgs : List Message) (tr : Trace) (line : String),
      fetchLoop clock long srv since fuel found from_ to_ msgs tr = some (.error line) →
      ∃ a b, srv.fetchError a b = some line := by
  induction fuel with
  | zero =>
    intro found from_ to_ msgs tr line h
    unfold fetchLoop at h
    split at h <;> simp at h
  | succ fuel ih =>
    intro found from_ to_ msgs tr line h
    unfold fetchLoop at h
    split at h
    · simp only at h
      cases hF : Fetch clock long srv (if to_ < 10 then 1 else from_) to_ tr with
      | error e =>
        simp only [hF, Option.some.injEq, Except.error.injEq] at h
        subst h
        exact ⟨_, _, Fetch_error _ _ _ _ _ _ _ hF⟩
      | ok p =>
        obtain ⟨batch, tr1⟩ := p
        simp only [hF] at h
        exact ih _ _ _ _ _ _ h
    · simp at h

theorem FetchAfter_error (clock : Nat → Int) (long : LongSort) (srv : Srv) (u : Mail) (t : Int)
    (tr : Trace) (line : String) (h : FetchAfter clock long srv u t tr = some (.error line)) :
    ∃ a b, srv.fetchError a b = some line := by
  unfold FetchAfter at h
  simp only at h
  cases hl : fetchLoop clock long srv (timeSince clock (2 * tr.tick) t) (u.numMsgs + 1) false
    (if u.numMsgs < 10 then 1 else sub32 u.numMsgs 9) u.numMsgs [] { tr with tick := tr.tick + 1 } with
  | none => simp [hl] at h
  | some r =>
    cases r with
    | error e =>
      simp only [hl, Option.some.injEq, Except.error.injEq] at h
      subst h
      exact fetchLoop_error _ _ _ _ _ _ _ _ _ _ _ hl
    | ok p => simp [hl] at h

theorem UploadFile_ok_link (env : Env) (key url : String) (body : Blob) (w : World)
    (h : (UploadFile env key body w).1 = .ok url) : GetFileLink env key = .ok url := by
  unfold UploadFile at h
  cases hp : env.putError w.puts.length key with
  | some e => simp [hp] at h
  | none => simpa [hp] using h

/-- What `createUserExcel` returns: the end of the process exactly when the fetch reports
a transfer error; an error that is not empty; or the link of the ledger key. -/
theorem createUserExcel_outcome (env : Env) (clock : Nat → Int) (long : LongSort) (srv : Srv)
    (u : Mail) (w : World) :
    (∀ line, createUserExcel env clock long srv u w = .error line →
      srv.fetchError (createRange (NumMsgs u)).1 (createRange (NumMsgs u)).2 = some line)
    ∧ (∀ e w1, createUserExcel env clock long srv u w = .ok (.error e, w1) → e ≠ "")
    ∧ (∀ line, srv.fetchError (createRange (NumMsgs u)).1 (createRange (NumMsgs u)).2 = some line →
      createUserExcel env clock long srv u w = .error line)
    ∧ (∀ url w1, createUserExcel env clock long srv u w = .ok (.ok url, w1) →
      GetFileLink env (u.User ++ "/" ++ DefaultExcel) = .ok url) := by
  unfold createUserExcel
  cases hF : Fetch clock long srv (createRange (NumMsgs u)).1 (createRange (NumMsgs u)).2
      w.trace with
  | error e =>
    have := Fetch_error _ _ _ _ _ _ _ hF
    refine ⟨?_, ?_, ?_, ?_⟩
    · intro line h
      simp only [Except.error.injEq] at h
      rw [← h]; exact this
    · intro e1 w1 h; simp at h
    · intro line h
      rw [this] at h
      simp only [Option.some.injEq] at h
      rw [h]
    · intro url w1 h; simp at h
  | ok p =>
    obtain ⟨msgs, tr⟩ := p
    have hne : ∀ line, srv.fetchError (createRange (NumMsgs u)).1 (createRange (NumMsgs u)).2
        ≠ some line := by
      intro line h
      unfold Fetch at hF
      simp [h] at hF
    simp only
    cases hN : New env (uploadAttachments env u msgs { w with trace := tr }).1 with
    | error e =>
      refine ⟨by intro line h; simp at h, ?_, fun line h => absurd h (hne line), ?_⟩
      · intro e1 w1 h
        simp only [Except.ok.injEq, Prod.mk.injEq, Except.error.injEq] at h
        rw [← h.1]
        exact append_ne_empty _ _ (by decide)
      · intro url w1 h; simp at h
    | ok ebuf =>
      simp only
      have hlink := fun url => UploadFile_ok_link env (u.User ++ "/" ++ DefaultExcel) url ebuf
        (uploadAttachments env u msgs { w with trace := tr }).2
      generalize UploadFile env (u.User ++ "/" ++ DefaultExcel) ebuf
        (uploadAttachments env u msgs { w with trace := tr }).2 = r at hlink
      obtain ⟨r1, r2⟩ := r
      refine ⟨?_, ?_, fun line h => absurd h (hne line), ?_⟩
      · intro line h; cases r1 <;> simp at h
      · intro e1 w1 h
        cases r1 with
        | error e2 =>
          simp only [Except.ok.injEq, Prod.mk.injEq, Except.error.injEq] at h
          rw [← h.1]
          exact append_ne_empty _ _ (by decide)
        | ok url => simp at h
      · intro url w1 h
        cases r1 with
        | error e2 => simp at h
        | ok url1 =>
          simp only [Except.ok.injEq, Prod.mk.injEq] at h
          rw [← h.1]
          exact hlink url1 rfl

/-- When the codec fails to encode the new ledger, `createUserExcel` returns the error
of the codec behind its own words. -/
theorem createUserExcel_encode (env : Env) (clock : Nat → Int) (long : LongSort) (srv : Srv)
    (u : Mail) (w : World) (msgs : List Message) (tr : Trace) (e : String)
    (hF : Fetch clock long srv (createRange u.numMsgs).1 (createRange u.numMsgs).2 w.trace
      = .ok (msgs, tr))
    (he : env.encodeError (setRows env (setHeaders env [])
      (uploadAttachments env u msgs { w with trace := tr }).1) = some e) :
    createUserExcel env clock long srv u w
      = .ok (.error ("unable to create excel file. err: " ++ e),
          (uploadAttachments env u msgs { w with trace := tr }).2) := by
  unfold createUserExcel
  simp only [NumMsgs, hF, New, save, he]

theorem GetFileLink_error_nonempty (env : Env) (key e : String)
    (h : GetFileLink env key = .error e) : e ≠ "" := by
  unfold GetFileLink at h
  cases hp : env.presign key with
  | error e1 =>
    simp only [hp, Except.error.injEq] at h
    rw [← h]
    exact append_ne_empty _ _ (append_ne_empty _ _ (append_ne_empty _ _ (by decide)))
  | ok url => simp [hp] at h

/-- What `updateUserExcel` returns: the end of the process only when a fetch reports a
transfer error; an error that is not empty; or the link of the ledger key. -/
theorem updateUserExcel_outcome (env : Env) (clock : Nat → Int) (long : LongSort) (srv : Srv)
    (u : Mail) (buf : Blob) (w : World) :
    (∀ line, updateUserExcel env clock long srv u buf w = some (.error line) →
      ∃ a b, srv.fetchError a b = some line)
    ∧ (∀ e w1, updateUserExcel env clock long srv u buf w = some (.ok (.error e, w1)) → e ≠ "")
    ∧ (∀ url w1, updateUserExcel env clock long srv u buf w = some (.ok (.ok url, w1)) →
      GetFileLink env (u.User ++ "/" ++ DefaultExcel) = .ok url) := by
  unfold updateUserExcel
  simp only
  cases hF : FetchAfter clock long srv u (GetRecentMsgDate env buf) w.trace with
  | none => exact ⟨by intro line h; simp at h, by intro e w1 h; simp at h,
      by intro e w1 h; simp at h⟩
  | some r =>
    cases r with
    | error e =>
      refine ⟨?_, by intro e w1 h; simp at h, by intro e w1 h; simp at h⟩
      intro line h
      simp only [Option.some.injEq, Except.error.injEq] at h
      subst h
      exact FetchAfter_error _ _ _ _ _ _ _ hF
    | ok p =>
      obtain ⟨msgs, tr⟩ := p
      simp only
      by_cases hz : msgs.length = 0
      · simp only [hz, if_true]
        refine ⟨by intro line h; simp at h, ?_, ?_⟩
        · intro e w1 h
          simp only [Option.some.injEq, Except.ok.injEq, Prod.mk.injEq] at h
          exact GetFileLink_error_nonempty env _ e h.1
        · intro url w1 h
          simp only [Option.some.injEq, Except.ok.injEq, Prod.mk.injEq] at h
          exact h.1
      · simp only [hz, if_false]
        cases hP : PrependRows env buf (uploadAttachments env u msgs { w with trace := tr }).1 with
        | error e =>
          refine ⟨by intro line h; simp at h, ?_, by intro url w1 h; simp at h⟩
          intro e1 w1 h
          simp only [Option.some.injEq, Except.ok.injEq, Prod.mk.injEq, Except.error.injEq] at h
          rw [← h.1]
          exact append_ne_empty _ _ (by decide)
        | ok bufp =>
          simp only
          have hlink := fun url => UploadFile_ok_link env (u.User ++ "/" ++ DefaultExcel) url
            bufp (uploadAttachments env u msgs { w with trace := tr }).2
          generalize UploadFile env (u.User ++ "/" ++ DefaultExcel) bufp
            (uploadAttachments env u msgs { w with trace := tr }).2 = r at hlink
          obtain ⟨r1, r2⟩ := r
          refine ⟨by intro line h; cases r1 <;> simp at h, ?_, ?_⟩
          · intro e1 w1 h
            cases r1 with
            | error e2 =>
              simp only [Option.some.injEq, Except.ok.injEq, Prod.mk.injEq, Except.error.injEq] at h
              rw [← h.1]
              exact append_ne_empty _ _ (by decide)
            | ok url => simp at h
          · intro url w1 h
            cases r1 with
            | error e2 => simp at h
            | ok url1 =>
              simp only [Option.some.injEq, Except.ok.injEq, Prod.mk.injEq] at h
              rw [← h.1]
              exact hlink url1 rfl

/-- When `PrependRows` fails, `updateUserExcel` returns its error behind its own words. -/
theorem updateUserExcel_prepend (env : Env) (clock : Nat → Int) (long : LongSort) (srv : Srv)
    (u : Mail) (buf : Blob) (w : World) (msgs : List Message) (tr : Trace) (e : String)
    (hF : FetchAfter clock long srv u (GetRecentMsgDate env buf) w.trace = some (.ok (msgs, tr)))
    (hne : msgs ≠ [])
    (hP : PrependRows env buf (uploadAttachments env u msgs { w with trace := tr }).1
      = .error e) :
    updateUserExcel env clock long srv u buf w
      = some (.ok (.error ("unable to update excel file. err: " ++ e),
          (uploadAttachments env u msgs { w with trace := tr }).2)) := by
  unfold updateUserExcel
  have hz : ¬ msgs.length = 0 := fun h => hne (List.length_eq_zero.mp h)
  simp only [hF, hz, if_false, hP]

/-- When the codec fails to encode the ledger with the new rows, `PrependRows` returns the
error of the codec. -/
theorem PrependRows_encode (env : Env) (buf : Blob) (msgs : List Message) (f f1 : Sheet)
    (e : String) (hO : OpenReader buf = .ok f) (hI : InsertRows f 2 msgs.length = .ok f1)
    (he : env.encodeError (setRows env f1 msgs) = some e) :
    PrependRows env buf msgs = .error e := by
  unfold PrependRows
  simp only [hO, hI, save, he]

theorem noSuchKey_contains : strContains noSuchKeyError NotFound = true := by
  decide



/-! ## The responses of `readMail` -/

/-- After a successful login `readMail` is the download of the ledger followed by
`createUserExcel` or `updateUserExcel`. -/
theorem readMail_ok (env : Env) (clock : Nat → Int) (long : LongSort) (srv : Srv) (u : Mail)
    (w : World) (u1 : Mail) (hreq : u.Addr ≠ "" ∧ u.User ≠ "" ∧ u.Pass ≠ "")
    (hl : Login srv u = .ok u1) :
    readMail env clock long srv (some u) w
      = match DownloadFile env (u.User ++ "/" ++ DefaultExcel) w with
        | .error e =>
          if strContains e NotFound then
            match createUserExcel env clock long srv u1 w with
            | .error line => some (.exited line, w)
            | .ok (.error e1, w1) => some (.sent ⟨StatusInternalServerError, e1, ""⟩, w1)
            | .ok (.ok url, w1) => some (.sent ⟨StatusCreated, "Success", url⟩, w1)
          else some (.sent ⟨StatusInternalServerError, e, ""⟩, w)
        | .ok s3buf =>
          match updateUserExcel env clock long srv u1 s3buf w with
          | none => none
          | some (.error line) => some (.exited line, w)
          | some (.ok (.error e1, w1)) => some (.sent ⟨StatusInternalServerError, e1, ""⟩, w1)
          | some (.ok (.ok url, w1)) => some (.sent ⟨StatusCreated, "Success", url⟩, w1) := by
  obtain ⟨ha, hb, hc⟩ := hreq
  have hcond : ¬ (u.Addr = "" ∨ u.User = "" ∨ u.Pass = "") := by
    rintro (h | h | h)
    · exact ha h
    · exact hb h
    · exact hc h
  obtain ⟨hu1, _⟩ := Login_ok srv u u1 hl
  unfold readMail
  simp only [hcond, if_false, hl, hu1]

theorem readMail_login_error (env : Env) (clock : Nat → Int) (long : LongSort) (srv : Srv)
    (u : Mail) (w : World) (e : String) (hreq : u.Addr ≠ "" ∧ u.User ≠ "" ∧ u.Pass ≠ "")
    (hl : Login srv u = .error e) :
    readMail env clock long srv (some u) w = some (.sent ⟨StatusBadRequest, e, ""⟩, w) := by
  obtain ⟨ha, hb, hc⟩ := hreq
  have hcond : ¬ (u.Addr = "" ∨ u.User = "" ∨ u.Pass = "") := by
    rintro (h | h | h)
    · exact ha h
    · exact hb h
    · exact hc h
  unfold readMail
  simp only [hcond, if_false, hl]

/-- Every response of `readMail` to a well-formed request is either a failure, with
status 400 or 500, no ledger URL and a message, or the success, with the link of the
ledger key. -/
theorem readMail_sent (env : Env) (clock : Nat → Int) (long : LongSort) (srv : Srv) (u : Mail)
    (w : World) (hreq : u.Addr ≠ "" ∧ u.User ≠ "" ∧ u.Pass ≠ "") (r : response) (w1 : World)
    (h : readMail env clock long srv (some u) w = some (.sent r, w1)) :
    (r.ExcelUrl = "" ∧ (r.Status = StatusBadRequest ∨ r.Status = StatusInternalServerError)
      ∧ (r.Message ≠ "" ∨ env.getError (u.User ++ "/" ++ DefaultExcel) = some r.Message))
    ∨ (r.Status = StatusCreated ∧ r.Message = "Success"
      ∧ GetFileLink env (u.User ++ "/" ++ DefaultExcel) = .ok r.ExcelUrl) := by
  cases hl : Login srv u with
  | error e =>
    rw [readMail_login_error env clock long srv u w e hreq hl] at h
    simp only [Option.some.injEq, Prod.mk.injEq, Reply.sent.injEq] at h
    rw [← h.1]
    exact Or.inl ⟨rfl, Or.inl rfl, Or.inl (Login_error_nonempty srv u _ hl)⟩
  | ok u1 =>
    obtain ⟨hu1, _⟩ := Login_ok srv u u1 hl
    rw [readMail_ok env clock long srv u w u1 hreq hl] at h
    cases hd : DownloadFile env (u.User ++ "/" ++ DefaultExcel) w with
    | error e =>
      simp only [hd] at h
      by_cases hnf : strContains e NotFound = true
      · simp only [hnf, if_true] at h
        obtain ⟨_, c2, _, c4⟩ := createUserExcel_outcome env clock long srv u1 w
        cases hC : createUserExcel env clock long srv u1 w with
        | error line => simp [hC] at h
        | ok p =>
          obtain ⟨res, w2⟩ := p
          cases res with
          | error e1 =>
            simp only [hC, Option.some.injEq, Prod.mk.injEq, Reply.sent.injEq] at h
            rw [← h.1]
            exact Or.inl ⟨rfl, Or.inr rfl, Or.inl (c2 e1 w2 hC)⟩
          | ok url =>
            simp only [hC, Option.some.injEq, Prod.mk.injEq, Reply.sent.injEq] at h
            rw [← h.1]
            have := c4 url w2 hC
            rw [hu1] at this
            exact Or.inr ⟨rfl, rfl, this⟩
      · simp only [hnf, Bool.false_eq_true, if_false, Option.some.injEq, Prod.mk.injEq,
          Reply.sent.injEq] at h
        rw [← h.1]
        refine Or.inl ⟨rfl, Or.inr rfl, Or.inr ?_⟩
        unfold DownloadFile at hd
        cases hg : env.getError (u.User ++ "/" ++ DefaultExcel) with
        | some e1 => simpa [hg] using hd
        | none =>
          simp only [hg] at hd
          cases hsg : storeGet w.store (u.User ++ "/" ++ DefaultExcel) with
          | none =>
            simp only [hsg, Except.error.injEq] at hd
            rw [← hd] at hnf
            exact absurd noSuchKey_contains hnf
          | some b => simp [hsg] at hd
    | ok s3buf =>
      simp only [hd] at h
      obtain ⟨_, d2, d3⟩ := updateUserExcel_outcome env clock long srv u1 s3buf w
      cases hU : updateUserExcel env clock long srv u1 s3buf w with
      | none => simp [hU] at h
      | some q =>
        cases q with
        | error line => simp [hU] at h
        | ok p =>
          obtain ⟨res, w2⟩ := p
          cases res with
          | error e1 =>
            simp only [hU, Option.some.injEq, Prod.mk.injEq, Reply.sent.injEq] at h
            rw [← h.1]
            exact Or.inl ⟨rfl, Or.inr rfl, Or.inl (d2 e1 w2 hU)⟩
          | ok url =>
            simp only [hU, Option.some.injEq, Prod.mk.injEq, Reply.sent.injEq] at h
            rw [← h.1]
            have := d3 url w2 hU
            rw [hu1] at this
            exact Or.inr ⟨rfl, rfl, this⟩

/-- When `readMail` ends the process, a mailbox fetch reported the logged transfer error
and the bucket is as before. -/
theorem readMail_exited (env : Env) (clock : Nat → Int) (long : LongSort) (srv : Srv) (u : Mail)
    (w : World) (hreq : u.Addr ≠ "" ∧ u.User ≠ "" ∧ u.Pass ≠ "") (line : String) (w1 : World)
    (h : readMail env clock long srv (some u) w = some (.exited line, w1)) :
    w1 = w ∧ ∃ a b, srv.fetchError a b = some line := by
  cases hl : Login srv u with
  | error e =>
    rw [readMail_login_error env clock long srv u w e hreq hl] at h
    simp at h
  | ok u1 =>
    rw [readMail_ok env clock long srv u w u1 hreq hl] at h
    cases hd : DownloadFile env (u.User ++ "/" ++ DefaultExcel) w with
    | error e =>
      simp only [hd] at h
      by_cases hnf : strContains e NotFound = true
      · simp only [hnf, if_true] at h
        obtain ⟨c1, _, _, _⟩ := createUserExcel_outcome env clock long srv u1 w
        cases hC : createUserExcel env clock long srv u1 w with
        | error line1 =>
          simp only [hC, Option.some.injEq, Prod.mk.injEq, Reply.exited.injEq] at h
          rw [← h.1, ← h.2]
          exact ⟨rfl, _, _, c1 line1 hC⟩
        | ok p =>
          obtain ⟨res, w2⟩ := p
          cases res <;> simp [hC] at h
      · simp [hnf] at h
    | ok s3buf =>
      simp only [hd] at h
      obtain ⟨d1, _, _⟩ := updateUserExcel_outcome env clock long srv u1 s3buf w
      cases hU : updateUserExcel env clock long srv u1 s3buf w with
      | none => simp [hU] at h
      | some q =>
        cases q with
        | error line1 =>
          simp only [hU, Option.some.injEq, Prod.mk.injEq, Reply.exited.injEq] at h
          rw [← h.1, ← h.2]
          exact ⟨rfl, d1 line1 hU⟩
        | ok p =>
          obtain ⟨res, w2⟩ := p
          cases res <;> simp [hU] at h

/-- C5 as amended: for a well-formed request,
(1) a failure to connect, log in or select the mailbox is answered with status 400, the
error text, which is not empty, and no ledger URL;
(2) for a user without a ledger, when the codec fails to encode the new ledger the answer
is status 500 with the error of the codec behind `unable to create excel file. err: ` and
no ledger URL;
(3) for a user with a ledger and new messages, when `PrependRows` fails the answer is
status 500 with its error behind `unable to update excel file. err: ` and no ledger URL;
(4) `PrependRows` fails with the error of the codec when the codec fails to encode the
ledger with the new rows;
(5) every response is either a failure, with status 400 or 500, no ledger URL and a
message that is not empty (or is the text of a store error of the download), or the
success, with status 201, the message `Success` and the link of the ledger key;
(6) when the process ends without a response, a mailbox fetch reported the logged
transfer error and the bucket is as before;
(7) a transfer error reported to the `Fetch` of `createUserExcel` ends the process
without a response;
(8) a transfer error reported to a `Fetch` of `FetchAfter` in `updateUserExcel` ends the
process without a response. -/
theorem readMail_failures (env : Env) (clock : Nat → Int) (long : LongSort) (srv : Srv)
    (u : Mail) (w : World) (hreq : u.Addr ≠ "" ∧ u.User ≠ "" ∧ u.Pass ≠ "") :
    (∀ e, Login srv u = .error e →
      readMail env clock long srv (some u) w = some (.sent ⟨StatusBadRequest, e, ""⟩, w)
        ∧ e ≠ "")
    ∧ (∀ u1 e0 msgs tr e, Login srv u = .ok u1 →
        DownloadFile env (u.User ++ "/" ++ DefaultExcel) w = .error e0 →
        strContains e0 NotFound = true →
        Fetch clock long srv (createRange u1.numMsgs).1 (createRange u1.numMsgs).2 w.trace
          = .ok (msgs, tr) →
        env.encodeError (setRows env (setHeaders env [])
          (uploadAttachments env u1 msgs { w with trace := tr }).1) = some e →
        readMail env clock long srv (some u) w
          = some (.sent ⟨StatusInternalServerError, "unable to create excel file. err: " ++ e, ""⟩,
              (uploadAttachments env u1 msgs { w with trace := tr }).2))
    ∧ (∀ u1 buf msgs tr e, Login srv u = .ok u1 →
        DownloadFile env (u.User ++ "/" ++ DefaultExcel) w = .ok buf →
        FetchAfter clock long srv u1 (GetRecentMsgDate env buf) w.trace = some (.ok (msgs, tr)) →
        msgs ≠ [] →
        PrependRows env buf (uploadAttachments env u1 msgs { w with trace := tr }).1 = .error e →
        readMail env clock long srv (some u) w
          = some (.sent ⟨StatusInternalServerError, "unable to update excel file. err: " ++ e, ""⟩,
              (uploadAttachments env u1 msgs { w with trace := tr }).2))
    ∧ (∀ buf msgs f f1 e, OpenReader buf = .ok f → InsertRows f 2 msgs.length = .ok f1 →
        env.encodeError (setRows env f1 msgs) = some e → PrependRows env buf msgs = .error e)
    ∧ (∀ r w1, readMail env clock long srv (some u) w = some (.sent r, w1) →
        (r.ExcelUrl = "" ∧ (r.Status = StatusBadRequest ∨ r.Status = StatusInternalServerError)
          ∧ (r.Message ≠ "" ∨ env.getError (u.User ++ "/" ++ DefaultExcel) = some r.Message))
        ∨ (r.Status = StatusCreated ∧ r.Message = "Success"
          ∧ GetFileLink env (u.User ++ "/" ++ DefaultExcel) = .ok r.ExcelUrl))
    ∧ (∀ line w1, readMail env clock long srv (some u) w = some (.exited line, w1) →
        w1 = w ∧ ∃ a b, srv.fetchError a b = some line)
    ∧ (∀ u1 e0 line, Login srv u = .ok u1 →
        DownloadFile env (u.User ++ "/" ++ DefaultExcel) w = .error e0 →
        strContains e0 NotFound = true →
        srv.fetchError (createRange u1.numMsgs).1 (createRange u1.numMsgs).2 = some line →
        readMail env clock long srv (some u) w = some (.exited line, w))
    ∧ (∀ u1 buf line, Login srv u = .ok u1 →
        DownloadFile env (u.User ++ "/" ++ DefaultExcel) w = .ok buf →
        FetchAfter clock long srv u1 (GetRecentMsgDate env buf) w.trace = some (.error line) →
        readMail env clock long srv (some u) w = some (.exited line, w)) := by
  refine ⟨?_, ?_, ?_, ?_, ?_, ?_, ?_, ?_⟩
  · intro e hl
    exact ⟨readMail_login_error env clock long srv u w e hreq hl, Login_error_nonempty srv u e hl⟩
  · intro u1 e0 msgs tr e hl hd hnf hF he
    rw [readMail_ok env clock long srv u w u1 hreq hl]
    simp only [hd, hnf, if_true, createUserExcel_encode env clock long srv u1 w msgs tr e hF he]
  · intro u1 buf msgs tr e hl hd hF hne hP
    rw [readMail_ok env clock long srv u w u1 hreq hl]
    simp only [hd, updateUserExcel_prepend env clock long srv u1 buf w msgs tr e hF hne hP]
  · intro buf msgs f f1 e hO hI he
    exact PrependRows_encode env buf msgs f f1 e hO hI he
  · intro r w1 h
    exact readMail_sent env clock long srv u w hreq r w1 h
  · intro line w1 h
    exact readMail_exited env clock long srv u w hreq line w1 h
  · intro u1 e0 line hl hd hnf hf
    rw [readMail_ok env clock long srv u w u1 hreq hl]
    simp only [hd, hnf, if_true]
    rw [(createUserExcel_outcome env clock long srv u1 w).2.2.1 line hf]
  · intro u1 buf line hl hd hF
    rw [readMail_ok env clock long srv u w u1 hreq hl]
    simp only [hd]
    have : updateUserExcel env clock long srv u1 buf w = some (.error line) := by
      unfold updateUserExcel
      simp only [hF]
    rw [this]



/-! ## The claims -/

set_option maxRecDepth 100000 in
/-- C1, evaluated at a mailbox of 19 messages dated in the order of their sequence numbers,
all of them later than the watermark: `FetchAfter` requests the range [10, 19] alone and
returns the ten newest messages; the nine oldest, each later than the watermark, are
never fetched. -/
theorem FetchAfter_misses_oldest_nine :
    scanSummary (FetchAfter tickClock plainSort (quietSrv (seqBox 19)) { demoUser with numMsgs := 19 }
        epoch ⟨0, []⟩)
      = some (["m19", "m18", "m17", "m16", "m15", "m14", "m13", "m12", "m11", "m10"], [(10, 19)])
    ∧ (∀ m ∈ seqBox 19, epoch < m.Date)
    ∧ (seqBox 19).Pairwise (fun a b => a.Date ≤ b.Date) := by
  decide

set_option maxRecDepth 1000000 in
/-- C2, evaluated at a mailbox of 30 messages: `createUserExcel` asks `Fetch` for the
range [5, 30], which holds 26 messages, and the ledger has 27 rows. The 26 messages are
more than twelve, so their sort is the stand-in `plainSort`; the range and the number of
rows do not depend on the order it leaves. -/
theorem createUserExcel_fetches_twenty_six :
    createRange 30 = (5, 30)
    ∧ add32 (sub32 30 5) 1 = 26
    ∧ (createSummary demoUser (createUserExcel demoEnv tickClock plainSort (quietSrv (seqBox 30))
        { demoUser with numMsgs := 30 } emptyWorld)).map
          (fun p => (p.1, p.2.map List.length)) = some ([(5, 30)], some 27) := by
  decide

/-- The counterexample of C3: four ledgers on which `PrependRows` does not yield the
ledger with the rows of the new messages. (1) 1,048,576 messages for a ledger that holds
the title row alone: the codec refuses to insert as many rows as a sheet has, and
`PrependRows` returns its error. (2) One message for a ledger of 1,048,576 rows: the last
row would move past the end of the sheet, and `PrependRows` returns the error of the
codec. (3) One message with one attachment for a ledger that holds 65,530 hyperlinks:
the codec refuses one more hyperlink, `setRows` drops the error, and the cell of the
attachment in the new row holds the name without the link. (4) A codec that fails to
encode the result: `PrependRows` returns its error. -/
theorem PrependRows_codec_limits :
    PrependRows demoEnv (.xlsx [headerRow]) (List.replicate 1048576 (plainMsg "m" 1))
        = .error "row number exceeds maximum limit"
    ∧ PrependRows demoEnv
        (.xlsx (headerRow :: List.replicate 1048575 (ledgerRow demoEnv (plainMsg "m" 1))))
        [plainMsg "n" 2] = .error "row number exceeds maximum limit"
    ∧ (linkCount fullLinks = 65530
      ∧ PrependRows demoEnv (.xlsx fullLinks) [attMsg 1]
        = .ok (.xlsx (headerRow
            :: (ledgerRow demoEnv (plainMsg "big" 1) ++ [{ value := "f0", link := none }])
            :: fullLinks.tail))
      ∧ ledgerRow demoEnv (attMsg 1)
        = ledgerRow demoEnv (plainMsg "big" 1)
          ++ [{ value := "f0", link := some "https://go-read-mail.s3.amazonaws.com/f0" }])
    ∧ PrependRows failEnv (.xlsx [headerRow]) [plainMsg "m" 1] = .error "zip: write failed" := by
  refine ⟨?_, ?_, ⟨linkCount_fullLinks, ?_, by decide⟩, rfl⟩
  · exact PrependRows_many demoEnv [headerRow] _
      (by rw [List.length_replicate]; exact Nat.le_refl _)
  · exact PrependRows_full demoEnv _ _
      (by rw [List.length_cons, List.length_replicate]; omega)
      (List.cons_ne_nil _ _)
      (by rw [List.length_cons, List.length_replicate]; unfold TotalRows; simp)
  · have hrow : rowText demoEnv (attMsg 1) []
        = ledgerRow demoEnv (plainMsg "big" 1) ++ [{ value := "f0", link := none }] := by decide
    have hc := linkCount_fullLinks
    rw [fullLinks_cons] at hc ⊢
    rw [PrependRows_refused demoEnv (attMsg 1) _ _ _ (by rw [hc]; decide)
      (by rw [List.length_replicate]; decide), hrow, save_demoEnv]
    rfl

/-- C3 as amended: for a decoded ledger with title row `h` and data rows `rs` and a
non-empty list of messages, `PrependRows` yields the ledger whose first row is `h`, whose
next rows are the rows of the messages in the given order, and whose remaining rows are
`rs`; it has as many rows more as there are messages. The row of a message is `ledgerRow`:
the seven fixed columns and one hyperlink cell for each attachment. This holds when the
ledger with the new rows has no more rows than a sheet may have, no message has more than
19 attachments, the sheet ends with no more hyperlinks than the codec allows, and the
codec encodes the result. -/
theorem PrependRows_rows (env : Env) (h : Row) (rs : List Row) (msgs : List Message)
    (hne : msgs ≠ [])
    (hrows : (h :: rs).length + msgs.length ≤ TotalRows)
    (hatt : ∀ m ∈ msgs, m.Attachment.length ≤ 19)
    (hlinks : linkCount (h :: rs) + (msgs.map (fun m => m.Attachment.length)).sum
      ≤ TotalSheetHyperlinks + 1)
    (henc : env.encodeError (h :: (msgs.map (ledgerRow env) ++ rs)) = none) :
    PrependRows env (.xlsx (h :: rs)) msgs = .ok (.xlsx (h :: (msgs.map (ledgerRow env) ++ rs)))
    ∧ (h :: (msgs.map (ledgerRow env) ++ rs)).length = (h :: rs).length + msgs.length := by
  refine ⟨?_, by simp; omega⟩
  have e : msgs.map (fun m => rowWrite env m []) = msgs.map (ledgerRow env) :=
    List.map_congr_left (fun m hm => rowWrite_nil env m (hatt m hm))
  rw [PrependRows_eq env h rs msgs hne hrows hlinks, e]
  simp [save, henc]

/-- Witness of C3 as amended: a message with two attachments prepended to a ledger of one
data row. -/
theorem PrependRows_rows_witness :
    PrependRows demoEnv (.xlsx (headerRow :: [ledgerRow demoEnv (plainMsg "m1" 1)])) [attMsg 2]
      = .ok (.xlsx (headerRow :: ([attMsg 2].map (ledgerRow demoEnv)
          ++ [ledgerRow demoEnv (plainMsg "m1" 1)])))
    ∧ (headerRow :: ([attMsg 2].map (ledgerRow demoEnv)
          ++ [ledgerRow demoEnv (plainMsg "m1" 1)])).length
        = (headerRow :: [ledgerRow demoEnv (plainMsg "m1" 1)]).length + [attMsg 2].length :=
  PrependRows_rows demoEnv headerRow [ledgerRow demoEnv (plainMsg "m1" 1)] [attMsg 2]
    (by decide) (by decide) (by decide) (by decide) rfl



/-- The counterexample of C4: a mailbox of two messages that carry the same date. The
ledger `createUserExcel` builds holds the two messages in rows 2 and 3 with the same Date
cell, so the Date cells are not strictly descending. -/
theorem same_date_rows_not_strict :
    ∃ s, createSummary demoUser (createUserExcel demoEnv tickClock plainSort (quietSrv sameDateBox)
          { demoUser with numMsgs := 2 } emptyWorld) = some ([(1, 2)], some s)
      ∧ dateCells s = ["63800000001", "63800000001"]
      ∧ ¬ StrictDescDates demoEnv s := by
  refine ⟨headerRow :: [ledgerRow demoEnv (plainMsg "b" 1), ledgerRow demoEnv (plainMsg "a" 1)],
    by decide, by decide, ?_⟩
  intro h
  have hc : dateCells (headerRow :: [ledgerRow demoEnv (plainMsg "b" 1),
      ledgerRow demoEnv (plainMsg "a" 1)]) = ["63800000001", "63800000001"] := by decide
  unfold StrictDescDates at h
  rw [hc] at h
  simp only [List.pairwise_cons, List.mem_singleton, forall_eq] at h
  obtain ⟨⟨x, y, hx, hy, hlt⟩, _⟩ := h
  rw [hx] at hy
  simp only [Option.some.injEq] at hy
  omega

theorem tickClock_steady : SteadyClock tickClock := by
  refine ⟨fun i => ?_, fun c => ?_⟩
  · unfold tickClock
    omega
  · unfold tickClock second
    omega

theorem paceClock_steady : SteadyClock paceClock := by
  refine ⟨fun i => ?_, fun c => ?_⟩
  · unfold paceClock second
    omega
  · unfold paceClock second
    omega

theorem paceClock_plain (d : Int) (hs : second ∣ d) (h1 : epoch ≤ d)
    (h2 : d ≤ epoch + 1000000000000) : PlainDate paceClock d := by
  refine ⟨hs, ?_⟩
  intro i
  unfold paceClock minDuration maxDuration second
  unfold epoch at h1 h2
  omega

theorem tickClock_plain (d : Int) (hs : second ∣ d) (h1 : epoch ≤ d)
    (h2 : d ≤ epoch + 1000000000000) : PlainDate tickClock d := by
  refine ⟨hs, ?_⟩
  intro i
  unfold tickClock minDuration maxDuration
  unfold epoch at h1 h2
  omega

theorem seqBox_good (n : Nat) (clocks : List (Nat → Int))
    (hcl : ∀ clock ∈ clocks, clock = tickClock ∨ clock = paceClock)
    (hdec : ∀ m ∈ seqBox n, demoEnv.parseDate (dateText demoEnv m) = some m.Date
      ∧ second ∣ m.Date ∧ epoch ≤ m.Date ∧ m.Date ≤ epoch + 1000000000000
      ∧ m.Attachment.length ≤ 26) :
    ∀ m ∈ seqBox n, GoodMsg demoEnv clocks m := by
  intro m hm
  obtain ⟨a, b, c, d, e⟩ := hdec m hm
  refine ⟨a, ?_, e⟩
  intro clock hc
  rcases hcl clock hc with h | h
  · rw [h]
    exact tickClock_plain m.Date b c d
  · rw [h]
    exact paceClock_plain m.Date b c d

set_option maxRecDepth 100000 in
/-- Witness of C4 as amended: a ledger built from a mailbox of three messages and extended
once after two more messages arrived, the second time under a clock that advances by two
seconds from one step to the next. -/
theorem ledger_dates_descending_witness :
    ∃ s, storeGet ([(⟨quietSrv (seqBox 5), paceClock⟩ : Request)].foldl
          (extend demoEnv plainSort demoUser) builtWorld).store
            (demoUser.User ++ "/" ++ DefaultExcel)
        = some (.xlsx s) ∧ DescDates demoEnv s :=
  ledger_dates_descending demoEnv plainSort demoUser emptyWorld ⟨quietSrv (seqBox 3), tickClock⟩
    [⟨quietSrv (seqBox 5), paceClock⟩] { demoUser with numMsgs := 3 }
    "https://go-read-mail.s3.amazonaws.com/ann@example.com/data.xlsx" builtWorld
    (by
      intro rq hrq
      simp only [List.mem_cons, List.mem_singleton, List.not_mem_nil, or_false] at hrq
      rcases hrq with e | e
      · rw [e]; exact tickClock_steady
      · rw [e]; exact paceClock_steady)
    (fun rq _ => plainSort_spec rq.clock)
    (by
      intro rq hrq
      simp only [List.mem_cons, List.mem_singleton, List.not_mem_nil, or_false] at hrq
      have hcl : ∀ clock ∈ List.map (fun r : Request => r.clock)
          [⟨quietSrv (seqBox 3), tickClock⟩, ⟨quietSrv (seqBox 5), paceClock⟩],
          clock = tickClock ∨ clock = paceClock := by
        intro clock hc
        simp only [List.map_cons, List.map_nil, List.mem_cons, List.mem_singleton,
          List.not_mem_nil, or_false] at hc
        exact hc
      rcases hrq with e | e
      · rw [e]
        exact seqBox_good 3 _ hcl (by decide)
      · rw [e]
        exact seqBox_good 5 _ hcl (by decide))
    rfl rfl



/-- The counterexample of C5: a request of a new user during which the mailbox fetch
reports a transfer error. `readMail` sends no response: the process ends in `Fetch`. -/
theorem readMail_transfer_error_exits :
    readMail demoEnv tickClock plainSort brokenSrv (some demoUser) emptyWorld
        = some (.exited "imap: connection closed", emptyWorld)
      ∧ ¬ ∃ r w1, readMail demoEnv tickClock plainSort brokenSrv (some demoUser) emptyWorld
        = some (.sent r, w1) := by
  have h : readMail demoEnv tickClock plainSort brokenSrv (some demoUser) emptyWorld
      = some (.exited "imap: connection closed", emptyWorld) := by decide
  refine ⟨h, ?_⟩
  rintro ⟨r, w1, h1⟩
  rw [h] at h1
  simp at h1

/-- Witness of C5 as amended: a request the server answers with a rejected password,
and a request of a user with a ledger and two new messages whose codec fails to encode. -/
theorem readMail_failures_witness :
    (readMail demoEnv tickClock plainSort authSrv (some demoUser) emptyWorld
        = some (.sent ⟨StatusBadRequest,
            "unable to login to ann@example.com. err: invalid credentials", ""⟩, emptyWorld)
      ∧ "unable to login to ann@example.com. err: invalid credentials" ≠ "")
    ∧ (readMail failEnv tickClock plainSort (quietSrv (seqBox 5)) (some demoUser) builtWorld).map
        Prod.fst = some (.sent ⟨StatusInternalServerError,
          "unable to update excel file. err: zip: write failed", ""⟩) :=
  ⟨(readMail_failures demoEnv tickClock plainSort authSrv demoUser emptyWorld
      ⟨by decide, by decide, by decide⟩).1 _ rfl,
    congrArg (Option.map Prod.fst)
      ((readMail_failures failEnv tickClock plainSort (quietSrv (seqBox 5)) demoUser builtWorld
        ⟨by decide, by decide, by decide⟩).2.2.1 { demoUser with numMsgs := 5 } demoLedger
        [plainMsg "m5" 5, plainMsg "m4" 4] ⟨18, [(1, 3), (1, 5)]⟩ "zip: write failed"
        rfl rfl rfl (by decide) rfl)⟩

/-- C7, evaluated at two inputs. With a clock that advances two seconds between the two
readings of one comparison, `sortMsgs` turns the list of a message and a message one
second older, which is in descending order, into ascending order. With a clock that
stands still, it leaves a message of the zero date before a message dated around the
year 1000:
both are more than a `Duration` away, so the comparator sees them as equal. -/
theorem sortMsgs_follows_clock :
    sortMsgs jumpClock plainSort [plainMsg "new" 2, plainMsg "old" 1] 0
        = ([plainMsg "old" 1, plainMsg "new" 2], 1)
      ∧ (plainMsg "old" 1).Date < (plainMsg "new" 2).Date
      ∧ sortMsgs frozenClock plainSort [Message.zero, ancientMsg] 0
        = ([Message.zero, ancientMsg], 1)
      ∧ Message.zero.Date < ancientMsg.Date := by
  decide

/-- C8: when `FetchAfter` returns no messages, `updateUserExcel` returns what
`GetFileLink` gives for the ledger key of the user, makes no `PutObject` call and leaves
every object of the bucket as it is. -/
theorem updateUserExcel_nothing_new (env : Env) (clock : Nat → Int) (long : LongSort)
    (srv : Srv) (u : Mail) (buf : Blob) (w : World) (tr : Trace)
    (h : FetchAfter clock long srv u (GetRecentMsgDate env buf) w.trace = some (.ok ([], tr))) :
    ∃ w1, updateUserExcel env clock long srv u buf w
        = some (.ok (GetFileLink env (u.User ++ "/" ++ DefaultExcel), w1))
      ∧ w1.store = w.store ∧ w1.puts = w.puts := by
  refine ⟨{ w with trace := tr }, ?_, rfl, rfl⟩
  unfold updateUserExcel
  simp only [h, List.length_nil, if_true]

/-- Witness of C8: the ledger already holds the three messages of the mailbox. -/
theorem updateUserExcel_nothing_new_witness :
    ∃ w1, updateUserExcel demoEnv tickClock plainSort (quietSrv (seqBox 3))
          { demoUser with numMsgs := 3 } demoLedger builtWorld
        = some (.ok (GetFileLink demoEnv (demoUser.User ++ "/" ++ DefaultExcel), w1))
      ∧ w1.store = builtWorld.store ∧ w1.puts = builtWorld.puts :=
  updateUserExcel_nothing_new demoEnv tickClock plainSort (quietSrv (seqBox 3))
    { demoUser with numMsgs := 3 } demoLedger builtWorld ⟨8, [(1, 3), (1, 3)]⟩ rfl

set_option maxRecDepth 100000 in
/-- C9, evaluated with a watermark older than every message: for 19 messages `FetchAfter`
requests the range [10, 19] alone, one batch instead of two, and the sequence numbers 1
to 9 are in no batch; for no message it requests nothing and returns the empty list, and
for 10 messages it requests the one batch [1, 10]. -/
theorem FetchAfter_ranges :
    (scanSummary (FetchAfter tickClock plainSort (quietSrv (seqBox 19)) { demoUser with numMsgs := 19 }
        epoch ⟨0, []⟩)).map Prod.snd = some [(10, 19)]
    ∧ scanSummary (FetchAfter tickClock plainSort (quietSrv (seqBox 0)) { demoUser with numMsgs := 0 }
        epoch ⟨0, []⟩) = some ([], [])
    ∧ (scanSummary (FetchAfter tickClock plainSort (quietSrv (seqBox 10)) { demoUser with numMsgs := 10 }
        epoch ⟨0, []⟩)).map Prod.snd = some [(1, 10)] := by
  decide

set_option maxRecDepth 100000 in
/-- C10, evaluated at a mailbox of 19 messages and the zero watermark: the duration since
the watermark is the largest `Duration`, no comparison against it is ever true, and yet
`FetchAfter` returns 10 of the 19 messages: the loop ends after the first batch. -/
theorem FetchAfter_zero_watermark :
    timeSince tickClock 0 zeroTime = maxDuration
    ∧ (∀ (clock : Nat → Int) (c : Nat) (d : Int), ¬ maxDuration < timeSince clock c d)
    ∧ (scanSummary (FetchAfter tickClock plainSort (quietSrv (seqBox 19)) { demoUser with numMsgs := 19 }
        zeroTime ⟨0, []⟩)).map (fun p => p.1.length) = some 10 := by
  refine ⟨by decide, ?_, by decide⟩
  intro clock c d
  simp only [timeSince, timeSub, maxDuration, minDuration]
  split_ifs <;> omega



/-! ## The cells of the attachments -/

theorem rowAttachments_keep (env : Env) (atts : List Attachment) (k : Nat) (cells : Row)
    (idx : Nat) (h : k + atts.length ≤ 19) (hi : idx < 7 + k) :
    readAt Cell.blank (rowAttachments env atts 7 k cells) idx = readAt Cell.blank cells idx := by
  induction atts generalizing k cells with
  | nil => rfl
  | cons a rest ih =>
    simp only [List.length_cons] at h
    simp only [rowAttachments]
    rw [ih (k + 1) _ (by omega) (by omega), rowModify_upper k (by omega),
      rowModify_upper k (by omega), readAt_updateAt_ne _ _ _ _ _ (by omega),
      readAt_updateAt_ne _ _ _ _ _ (by omega)]

/-- With at most 19 cells to write from column `H` on, the attachment at index `i` of the
list ends in the cell `i` columns after the first written one, as a hyperlink cell. -/
theorem rowAttachments_cell (env : Env) (atts : List Attachment) (k : Nat) (cells : Row)
    (i : Nat) (a : Attachment) (h : k + atts.length ≤ 19) (ha : atts[i]? = some a) :
    readAt Cell.blank (rowAttachments env atts 7 k cells) (7 + k + i)
      = { value := cellText env a.Name, link := some a.Url } := by
  induction atts generalizing k cells i with
  | nil => simp at ha
  | cons b rest ih =>
    simp only [List.length_cons] at h
    simp only [rowAttachments]
    cases i with
    | zero =>
      simp only [List.getElem?_cons_zero, Option.some.injEq] at ha
      subst ha
      rw [rowAttachments_keep env rest (k + 1) _ (7 + k + 0) (by omega) (by omega),
        rowModify_upper k (by omega), rowModify_upper k (by omega), Nat.add_zero,
        readAt_updateAt_same, readAt_updateAt_same]
    | succ i =>
      simp only [List.getElem?_cons_succ] at ha
      have := ih (k + 1) (rowModify (65 + 7 + k) (fun c => { c with value := cellText env b.Name })
        (rowModify (65 + 7 + k) (fun c => { c with link := some b.Url }) cells)) i
        (by omega) ha
      have e : 7 + k + (i + 1) = 7 + (k + 1) + i := by omega
      rw [e]
      exact this

/-- For a message of at most 19 attachments written to a data row of the sheet, when no
hyperlink is refused, `setRows` leaves attachment `i` in the column `i` places after `H`
of that row, as a hyperlink cell whose text is its `Name`, as the codec stores it, and
whose target is its `Url`. -/
theorem setFields_attachment (env : Env) (msg : Message) (dataRow : Nat) (f : Sheet) (i : Nat)
    (a : Attachment) (hrow : 0 < dataRow) (htot : dataRow ≤ TotalRows)
    (hcap : linkCount f + msg.Attachment.length ≤ TotalSheetHyperlinks + 1)
    (h : msg.Attachment.length ≤ 19)
    (ha : msg.Attachment[i]? = some a) :
    cellAt (setFields env msg dataRow headers 0 f) dataRow (8 + i)
      = { value := cellText env a.Name, link := some a.Url } := by
  unfold cellAt
  rw [setFields_eq env msg dataRow f hrow htot hcap, readAt_updateAt_same]
  unfold rowWrite
  have := rowAttachments_cell env msg.Attachment 0
    (rowModify 71 (fun c => { c with value := cellText env (ToString msg.ReplyTo) })
    (rowModify 70 (fun c => { c with value := cellText env (ToString msg.Bcc) })
    (rowModify 69 (fun c => { c with value := cellText env (ToString msg.Cc) })
    (rowModify 68 (fun c => { c with value := cellText env msg.Subject })
    (rowModify 67 (fun c => { c with value := cellText env (ToString msg.From) })
    (rowModify 66 (fun c => { c with value := cellText env (env.formatDate msg.Date) })
    (rowModify 65 (fun c => { c with value := cellText env msg.Id })
      (readAt [] f (dataRow - 1))))))))) i a (by omega) ha
  have e : 8 + i - 1 = 7 + 0 + i := by omega
  rw [e]
  exact this

set_option maxRecDepth 100000 in
/-- C11, evaluated at messages of 20, 26 and 33 attachments written to row 2 of a new
ledger. Of 20 attachments the first 19 are hyperlink cells in the columns `H` to `Z`, and
the twentieth, whose cell name starts with the character after `Z`, is in no cell of the
row: it is dropped. Of 26 attachments the last is written to column `A`, over the `Id` of
the message. Of 33 attachments the last is written to column `H`, over the first. -/
theorem setRows_attachment_columns :
    (readAt [] (setRows demoEnv (setHeaders demoEnv []) [attMsg 20]) 1).length = 26
    ∧ (∀ k, k < 19 →
        cellAt (setRows demoEnv (setHeaders demoEnv []) [attMsg 20]) 2 (8 + k) = linkCell (fileAtt k))
    ∧ (∀ c ∈ readAt [] (setRows demoEnv (setHeaders demoEnv []) [attMsg 20]) 1,
        c.value ≠ (fileAtt 19).Name)
    ∧ columnOf (65 + 7 + 19) = none
    ∧ cellAt (setRows demoEnv (setHeaders demoEnv []) [attMsg 26]) 2 1 = linkCell (fileAtt 25)
    ∧ cellAt (setRows demoEnv (setHeaders demoEnv []) [attMsg 33]) 2 8 = linkCell (fileAtt 32) := by
  decide

end ReadMail
